import Mathlib

/-!
Verification development for the rl-swarm repository.

The file embeds, as executable Lean definitions translated from the Python
sources, the parts of the program that the verified properties concern:

* `src/hivemind_exp/gsm8k/stage_merger.py` — `merge_stage1_question` and
  `merge_stage2_question` (a pure model over an inductive type of Python
  values, plus a heap model with explicit mutable dictionaries used to
  settle the purity / non-mutation property);
* `src/web/api/server_cache.py` — the `Cache` poll cycle
  (`_get_round_and_stage`, `_get_gossip`, `get_last_polled`);
* `src/web/api/server.py` — the `/api/healthz` and `/api/gossip` handlers;
* `src/hivemind_exp/peer_discovery/discovery.py` — `get_peers` and
  `get_bootstrap_peers`.

Python dictionaries are modelled as insertion-ordered association lists
(`List (String × _)`) with first-occurrence lookup, which matches CPython
dict semantics when keys are unique.  External effects (the DHT, the
random generator, `hashlib.md5`) are supplied as explicit parameters.
-/

set_option linter.unusedVariables false

/-- A Python value as far as the stage merger inspects one: a string, a
dictionary, or any other opaque object (numbers, `None`, ...).  The merger
only ever pattern-matches one dictionary level, so the nesting never needs
to be traversed recursively. -/
inductive PyV where
  | str (s : String)
  | obj (n : Nat)
  | dict (d : List (String × PyV))

/-- First-occurrence lookup in an association list: `o[k]` / `o.get(k)`. -/
def pyLookup (d : List (String × PyV)) (k : String) : Option PyV :=
  (d.find? (fun p => p.1 == k)).map (fun p => p.2)

/-- Key-membership test: Python `k in o`. -/
def pyHasKey (d : List (String × PyV)) (k : String) : Bool :=
  (pyLookup d k).isSome

/-- Python `d[k] = v`: replace the value in place if the key exists
(keeping its position), otherwise append the binding at the end. -/
def pySet (d : List (String × PyV)) (k : String) (v : PyV) :
    List (String × PyV) :=
  if pyHasKey d k then d.map (fun p => if p.1 == k then (k, v) else p)
  else d ++ [(k, v)]

/-- Python `d.update(e)`: fold `d[k] = v` over the entries of `e` in
order. -/
def pyUpdate (d e : List (String × PyV)) : List (String × PyV) :=
  e.foldl (fun acc p => pySet acc p.1 p.2) d

/-- The merger's accumulator dict.  In the source it is a single Python
dict `merged`; its scalar entries (`"question"`, `"answer"`, and for stage
2 `"stage2_prompt"`) are kept in `fields` in key order (value `none` is
the initial Python `None`), and the contribution dictionary
(`"agent_answers"` / `"agent_opinion"`) in `contrib`. -/
structure Merged where
  fields : List (String × Option PyV)
  contrib : List (String × PyV)

/-- `merged = {"question": None, ..., dictKey: {}}`. -/
def initMerged (pk : List String) : Merged :=
  ⟨pk.map (fun k => (k, none)), []⟩

/-- One iteration of the merge loop for the per-agent raw output `ao.2`:
skip the entry unless every required key is present and the contribution
field is a dict; otherwise overwrite the scalar fields and fold the
entry's contribution dict into the accumulator with `dict.update`. -/
def stepOutput (pk : List String) (dk : String) (m : Merged)
    (ao : String × List (String × PyV)) : Merged :=
  let o := ao.2
  if (pk ++ [dk]).all (fun k => pyHasKey o k) then
    match pyLookup o dk with
    | some (.dict d) => ⟨pk.map (fun k => (k, pyLookup o k)), pyUpdate m.contrib d⟩
    | _ => m
  else m

/-- The merge loop: `for agent, o in outputs.items(): ...`. -/
def foldOutputs (pk : List String) (dk : String)
    (outputs : List (String × List (String × PyV))) : Merged :=
  outputs.foldl (stepOutput pk dk) (initMerged pk)

/-- The fill loop: `for agent in outputs: if agent not in merged[dk]:
merged[dk][agent] = placeholder`. -/
def fillContrib (ph : PyV) (agents : List String)
    (c : List (String × PyV)) : List (String × PyV) :=
  agents.foldl (fun c a => if pyHasKey c a then c else c ++ [(a, ph)]) c

/-- Common shape of `merge_stage1_question` / `merge_stage2_question`:
fold the per-agent outputs, then fill the contribution map with the
placeholder for every input agent id that is still absent. -/
def mergeCore (pk : List String) (dk : String) (ph : PyV)
    (outputs : List (String × List (String × PyV))) : Merged :=
  let f := foldOutputs pk dk outputs
  ⟨f.fields, fillContrib ph (outputs.map Prod.fst) f.contrib⟩

/-- `merge_stage1_question` from `src/hivemind_exp/gsm8k/stage_merger.py`:
required keys `question`, `answer`, `agent_answers`; placeholder
`"No answer received..."`. -/
def merge_stage1_question (outputs : List (String × List (String × PyV))) :
    Merged :=
  mergeCore ["question", "answer"] "agent_answers"
    (PyV.str "No answer received...") outputs

/-- `merge_stage2_question` from `src/hivemind_exp/gsm8k/stage_merger.py`:
required keys `question`, `answer`, `stage2_prompt`, `agent_opinion`;
placeholder `"No feedback received..."`. -/
def merge_stage2_question (outputs : List (String × List (String × PyV))) :
    Merged :=
  mergeCore ["question", "answer", "stage2_prompt"] "agent_opinion"
    (PyV.str "No feedback received...") outputs

/-- Well-formedness of one per-agent raw output, exactly the two guard
conditions of the merge loop: all required keys present and the
contribution field is a dict. -/
def wfOutput (pk : List String) (dk : String)
    (o : List (String × PyV)) : Bool :=
  (pk ++ [dk]).all (fun k => pyHasKey o k) &&
    (match pyLookup o dk with
     | some (.dict _) => true
     | _ => false)

/-- The keys of the contribution dict of a raw output (empty unless the
field is a dict). -/
def contribKeys (dk : String) (o : List (String × PyV)) : List String :=
  match pyLookup o dk with
  | some (.dict d) => d.map Prod.fst
  | _ => []

/-! ### Association-list (Python dict) lemmas -/

theorem pyHasKey_nil (k : String) : pyHasKey [] k = false := rfl

theorem pyHasKey_cons (p : String × PyV) (c : List (String × PyV)) (k : String) :
    pyHasKey (p :: c) k = (p.1 == k || pyHasKey c k) := by
  by_cases h : p.1 == k <;> simp [pyHasKey, pyLookup, List.find?, h]

theorem pyHasKey_iff_mem (c : List (String × PyV)) (k : String) :
    pyHasKey c k = true ↔ k ∈ c.map Prod.fst := by
  induction c with
  | nil => simp [pyHasKey, pyLookup]
  | cons p c ih =>
    rw [pyHasKey_cons]
    simp only [List.map_cons, List.mem_cons, Bool.or_eq_true, beq_iff_eq, ih]
    constructor
    · rintro (h | h)
      · exact Or.inl h.symm
      · exact Or.inr h
    · rintro (h | h)
      · exact Or.inl h.symm
      · exact Or.inr h

theorem pyHasKey_append (c e : List (String × PyV)) (k : String) :
    pyHasKey (c ++ e) k = (pyHasKey c k || pyHasKey e k) := by
  induction c with
  | nil => simp [pyHasKey_nil]
  | cons p c ih => simp [pyHasKey_cons, ih, Bool.or_assoc]

theorem pyLookup_cons (p : String × PyV) (c : List (String × PyV)) (k : String) :
    pyLookup (p :: c) k = if p.1 == k then some p.2 else pyLookup c k := by
  by_cases h : (p.1 == k) = true <;> simp [pyLookup, List.find?, h]

theorem pyLookup_append_of_has (c e : List (String × PyV)) (k : String)
    (h : pyHasKey c k = true) : pyLookup (c ++ e) k = pyLookup c k := by
  induction c with
  | nil => simp [pyHasKey_nil] at h
  | cons p c ih =>
    rw [List.cons_append, pyLookup_cons, pyLookup_cons]
    by_cases hp : (p.1 == k) = true
    · rw [if_pos hp, if_pos hp]
    · rw [if_neg hp, if_neg hp]
      rw [pyHasKey_cons] at h
      rcases Bool.or_eq_true_iff.mp h with h' | h'
      · exact absurd h' hp
      · exact ih h'

theorem pyLookup_append_of_not (c e : List (String × PyV)) (k : String)
    (h : pyHasKey c k = false) : pyLookup (c ++ e) k = pyLookup e k := by
  induction c with
  | nil => simp
  | cons p c ih =>
    rw [pyHasKey_cons, Bool.or_eq_false_iff] at h
    rw [List.cons_append, pyLookup_cons, if_neg (by simp [h.1])]
    exact ih h.2

theorem mem_keys_pySet (d : List (String × PyV)) (k : String) (v : PyV)
    (x : String) :
    x ∈ (pySet d k v).map Prod.fst ↔ (x ∈ d.map Prod.fst ∨ x = k) := by
  unfold pySet
  by_cases h : pyHasKey d k = true
  · rw [if_pos h]
    have hk : k ∈ d.map Prod.fst := (pyHasKey_iff_mem d k).mp h
    have hmaps : (d.map (fun p => if p.1 == k then (k, v) else p)).map Prod.fst
        = d.map (fun p => if (p.1 == k) = true then k else p.1) := by
      rw [List.map_map]
      apply List.map_congr_left
      intro p hp
      simp only [Function.comp_apply]
      by_cases hpk : (p.1 == k) = true
      · rw [if_pos hpk, if_pos hpk]
      · rw [if_neg hpk, if_neg hpk]
    rw [hmaps, List.mem_map]
    constructor
    · rintro ⟨p, hp, hfst⟩
      by_cases hpk : (p.1 == k) = true
      · rw [if_pos hpk] at hfst
        exact Or.inr hfst.symm
      · rw [if_neg hpk] at hfst
        exact Or.inl (List.mem_map.mpr ⟨p, hp, hfst⟩)
    · rintro (hx | hx)
      · rcases List.mem_map.mp hx with ⟨p, hp, hfst⟩
        by_cases hpk : (p.1 == k) = true
        · refine ⟨p, hp, ?_⟩
          rw [if_pos hpk]
          rw [beq_iff_eq] at hpk
          rw [← hpk]
          exact hfst
        · exact ⟨p, hp, by rw [if_neg hpk]; exact hfst⟩
      · rcases List.mem_map.mp hk with ⟨p, hp, hfst⟩
        have hpk : (p.1 == k) = true := beq_iff_eq.mpr hfst
        exact ⟨p, hp, by rw [if_pos hpk]; exact hx.symm⟩
  · rw [if_neg h]
    simp [List.map_append]

theorem mem_keys_pyUpdate (d e : List (String × PyV)) (x : String) :
    x ∈ (pyUpdate d e).map Prod.fst ↔
      (x ∈ d.map Prod.fst ∨ x ∈ e.map Prod.fst) := by
  induction e generalizing d with
  | nil => simp [pyUpdate]
  | cons p e ih =>
    show x ∈ (pyUpdate (pySet d p.1 p.2) e).map Prod.fst ↔ _
    rw [ih, mem_keys_pySet]
    simp only [List.map_cons, List.mem_cons]
    tauto

/-- A malformed per-agent output leaves the accumulator untouched. -/
theorem stepOutput_not_wf (pk : List String) (dk : String) (m : Merged)
    (ao : String × List (String × PyV)) (h : wfOutput pk dk ao.2 = false) :
    stepOutput pk dk m ao = m := by
  unfold wfOutput at h
  unfold stepOutput
  rcases Bool.and_eq_false_iff.mp h with h' | h'
  · rw [if_neg (by simp [h'])]
  · by_cases hall : ((pk ++ [dk]).all fun k => pyHasKey ao.2 k) = true
    · rw [if_pos hall]
      cases hl : pyLookup ao.2 dk with
      | none => rfl
      | some v => cases v <;> simp_all
    · rw [if_neg hall]

/-- A well-formed per-agent output overwrites the scalar fields and folds
its contribution dict into the accumulator. -/
theorem stepOutput_wf (pk : List String) (dk : String) (m : Merged)
    (ao : String × List (String × PyV)) (d : List (String × PyV))
    (hall : ((pk ++ [dk]).all fun k => pyHasKey ao.2 k) = true)
    (hd : pyLookup ao.2 dk = some (PyV.dict d)) :
    stepOutput pk dk m ao =
      ⟨pk.map (fun k => (k, pyLookup ao.2 k)), pyUpdate m.contrib d⟩ := by
  unfold stepOutput
  rw [if_pos hall, hd]

/-- Key-set of the contribution map accumulated by the merge loop. -/
theorem mem_contrib_foldl (pk : List String) (dk : String)
    (l : List (String × List (String × PyV))) (m : Merged) (x : String) :
    x ∈ (l.foldl (stepOutput pk dk) m).contrib.map Prod.fst ↔
      (x ∈ m.contrib.map Prod.fst ∨
        ∃ ao ∈ l, wfOutput pk dk ao.2 = true ∧ x ∈ contribKeys dk ao.2) := by
  induction l generalizing m with
  | nil => simp
  | cons ao l ih =>
    rw [List.foldl_cons, ih]
    by_cases hw : wfOutput pk dk ao.2 = true
    · have hall : ((pk ++ [dk]).all fun k => pyHasKey ao.2 k) = true :=
        (Bool.and_eq_true_iff.mp hw).1
      have hdict := (Bool.and_eq_true_iff.mp hw).2
      cases hl : pyLookup ao.2 dk with
      | none => rw [hl] at hdict; simp at hdict
      | some v =>
        cases v with
        | dict d =>
          rw [stepOutput_wf pk dk m ao d hall hl]
          have hck : contribKeys dk ao.2 = d.map Prod.fst := by
            unfold contribKeys; rw [hl]
          simp only [mem_keys_pyUpdate, List.mem_cons]
          constructor
          · rintro ((h | h) | h)
            · exact Or.inl h
            · exact Or.inr ⟨ao, Or.inl rfl, hw, by rw [hck]; exact h⟩
            · rcases h with ⟨bo, hbo, hbw, hbk⟩
              exact Or.inr ⟨bo, Or.inr hbo, hbw, hbk⟩
          · rintro (h | ⟨bo, (hbo | hbo), hbw, hbk⟩)
            · exact Or.inl (Or.inl h)
            · refine Or.inl (Or.inr ?_)
              rw [hbo] at hbk
              rw [hck] at hbk
              exact hbk
            · exact Or.inr ⟨bo, hbo, hbw, hbk⟩
        | str s => rw [hl] at hdict; simp at hdict
        | obj n => rw [hl] at hdict; simp at hdict
    · rw [stepOutput_not_wf pk dk m ao (Bool.not_eq_true _ ▸ hw)]
      simp only [List.mem_cons]
      constructor
      · rintro (h | h)
        · exact Or.inl h
        · rcases h with ⟨bo, hbo, hbw, hbk⟩
          exact Or.inr ⟨bo, Or.inr hbo, hbw, hbk⟩
      · rintro (h | ⟨bo, (hbo | hbo), hbw, hbk⟩)
        · exact Or.inl h
        · rw [hbo] at hbw; exact absurd hbw hw
        · exact Or.inr ⟨bo, hbo, hbw, hbk⟩

/-- Key-set of the contribution map after the fill loop. -/
theorem mem_keys_fillContrib (ph : PyV) (agents : List String)
    (c : List (String × PyV)) (x : String) :
    x ∈ (fillContrib ph agents c).map Prod.fst ↔
      (x ∈ c.map Prod.fst ∨ x ∈ agents) := by
  induction agents generalizing c with
  | nil => simp [fillContrib]
  | cons a ag ih =>
    have hstep : fillContrib ph (a :: ag) c
        = fillContrib ph ag (if pyHasKey c a then c else c ++ [(a, ph)]) := rfl
    rw [hstep]
    by_cases h : pyHasKey c a = true
    · rw [if_pos h, ih]
      have ha : a ∈ c.map Prod.fst := (pyHasKey_iff_mem c a).mp h
      simp only [List.mem_cons]
      constructor
      · rintro (h' | h')
        · exact Or.inl h'
        · exact Or.inr (Or.inr h')
      · rintro (h' | (h' | h'))
        · exact Or.inl h'
        · rw [h']; exact Or.inl ha
        · exact Or.inr h'
    · rw [if_neg h, ih]
      simp only [List.map_append, List.mem_append, List.map_cons, List.mem_cons,
        List.map_nil, List.mem_singleton, List.not_mem_nil, or_false]
      tauto

/-- The fill loop never changes the binding of a key that is already
present (it only ever appends missing keys). -/
theorem lookup_fillContrib_of_has (ph : PyV) (agents : List String)
    (c : List (String × PyV)) (k : String) (h : pyHasKey c k = true) :
    pyLookup (fillContrib ph agents c) k = pyLookup c k := by
  induction agents generalizing c with
  | nil => rfl
  | cons a ag ih =>
    have hstep : fillContrib ph (a :: ag) c
        = fillContrib ph ag (if pyHasKey c a then c else c ++ [(a, ph)]) := rfl
    rw [hstep]
    by_cases ha : pyHasKey c a = true
    · rw [if_pos ha]; exact ih c h
    · rw [if_neg ha]
      rw [ih (c ++ [(a, ph)]) (by rw [pyHasKey_append, h]; rfl)]
      exact pyLookup_append_of_has c [(a, ph)] k h

/-- An input agent id with no binding of its own ends up bound to the
placeholder by the fill loop. -/
theorem lookup_fillContrib_placeholder (ph : PyV) (agents : List String)
    (c : List (String × PyV)) (k : String) (hmem : k ∈ agents)
    (habs : pyHasKey c k = false) :
    pyLookup (fillContrib ph agents c) k = some ph := by
  induction agents generalizing c with
  | nil => simp at hmem
  | cons a ag ih =>
    have hstep : fillContrib ph (a :: ag) c
        = fillContrib ph ag (if pyHasKey c a then c else c ++ [(a, ph)]) := rfl
    rw [hstep]
    by_cases ha : pyHasKey c a = true
    · rw [if_pos ha]
      rcases List.mem_cons.mp hmem with hk | hk
      · rw [hk] at habs; rw [habs] at ha; exact absurd ha (by simp)
      · exact ih c hk habs
    · rw [if_neg ha]
      by_cases hk : k = a
      · have hck : pyHasKey (c ++ [(a, ph)]) k = true := by
          rw [pyHasKey_append, habs, hk]
          simp [pyHasKey_cons]
        rw [lookup_fillContrib_of_has ph ag _ k hck]
        rw [pyLookup_append_of_not c [(a, ph)] k habs, hk]
        simp [pyLookup_cons]
      · have hk' : k ∈ ag := by
          rcases List.mem_cons.mp hmem with h' | h'
          · exact absurd h' hk
          · exact h'
        have habs' : pyHasKey (c ++ [(a, ph)]) k = false := by
          rw [pyHasKey_append, habs]
          simp [pyHasKey_cons, pyHasKey_nil]
          exact fun h' => absurd h'.symm hk
        exact ih _ hk' habs'

/-- Full characterisation of the contribution map produced by
`mergeCore`: its key set is the union of the input agent ids and the
contribution keys of the well-formed entries, and every input agent id the
fold left unbound is bound to the placeholder. -/
theorem mergeCore_contrib_spec (pk : List String) (dk : String) (ph : PyV)
    (outputs : List (String × List (String × PyV))) :
    (∀ x, x ∈ (mergeCore pk dk ph outputs).contrib.map Prod.fst ↔
      (x ∈ outputs.map Prod.fst ∨ ∃ ao ∈ outputs,
        wfOutput pk dk ao.2 = true ∧ x ∈ contribKeys dk ao.2)) ∧
    (∀ a, a ∈ outputs.map Prod.fst →
      pyHasKey (foldOutputs pk dk outputs).contrib a = false →
      pyLookup (mergeCore pk dk ph outputs).contrib a = some ph) := by
  constructor
  · intro x
    show x ∈ (fillContrib ph (outputs.map Prod.fst)
        (foldOutputs pk dk outputs).contrib).map Prod.fst ↔ _
    rw [mem_keys_fillContrib]
    unfold foldOutputs
    rw [mem_contrib_foldl]
    unfold initMerged
    simp only [List.map_nil, List.not_mem_nil, false_or]
    exact Or.comm
  · intro a hmem habs
    exact lookup_fillContrib_placeholder ph (outputs.map Prod.fst)
      (foldOutputs pk dk outputs).contrib a hmem habs

/-- A concrete input whose only agent id is `A` but whose (well-formed)
stage-1 output contributes an answer keyed by a different id `B`. -/
def exC1 : List (String × List (String × PyV)) :=
  [("A", [("question", PyV.str "q"), ("answer", PyV.str "a"),
          ("agent_answers", PyV.dict [("B", PyV.str "ansB")])])]

/-- Claim C1, as stated, is false: the key set of the contribution map is
not always exactly the input agent-id set.  On `exC1` the merged
`agent_answers` contains the key `B` even though `B` is not a key of the
input mapping. -/
theorem merge_contrib_keyset_counterexample :
    "B" ∈ (merge_stage1_question exC1).contrib.map Prod.fst ∧
      "B" ∉ exC1.map Prod.fst := by decide

/-- Claim C1 (amended): for both mergers, every input agent id appears in
the contribution map (bound to the fixed placeholder whenever the merge
fold did not bind it), and the key set equals the union of the input
agent-id set and the contribution keys of the well-formed entries — keys
contributed by well-formed entries may exceed the input id set. -/
theorem merge_contrib_keyset (outputs : List (String × List (String × PyV))) :
    (∀ x, x ∈ (merge_stage1_question outputs).contrib.map Prod.fst ↔
      (x ∈ outputs.map Prod.fst ∨ ∃ ao ∈ outputs,
        wfOutput ["question", "answer"] "agent_answers" ao.2 = true ∧
          x ∈ contribKeys "agent_answers" ao.2)) ∧
    (∀ a, a ∈ outputs.map Prod.fst →
      pyHasKey (foldOutputs ["question", "answer"] "agent_answers" outputs).contrib
          a = false →
      pyLookup (merge_stage1_question outputs).contrib a
        = some (PyV.str "No answer received...")) ∧
    (∀ x, x ∈ (merge_stage2_question outputs).contrib.map Prod.fst ↔
      (x ∈ outputs.map Prod.fst ∨ ∃ ao ∈ outputs,
        wfOutput ["question", "answer", "stage2_prompt"] "agent_opinion" ao.2 = true ∧
          x ∈ contribKeys "agent_opinion" ao.2)) ∧
    (∀ a, a ∈ outputs.map Prod.fst →
      pyHasKey (foldOutputs ["question", "answer", "stage2_prompt"] "agent_opinion"
          outputs).contrib a = false →
      pyLookup (merge_stage2_question outputs).contrib a
        = some (PyV.str "No feedback received...")) := by
  have h1 := mergeCore_contrib_spec ["question", "answer"] "agent_answers"
    (PyV.str "No answer received...") outputs
  have h2 := mergeCore_contrib_spec ["question", "answer", "stage2_prompt"]
    "agent_opinion" (PyV.str "No feedback received...") outputs
  exact ⟨h1.1, h1.2, h2.1, h2.2⟩

/-- Input for the amended-C1 witness: agent `A` well-formed, agent `C`
malformed (missing keys), so `C` must receive the stage-1 placeholder. -/
def exC1w : List (String × List (String × PyV)) :=
  [("A", [("question", PyV.str "q"), ("answer", PyV.str "a"),
          ("agent_answers", PyV.dict [("B", PyV.str "ansB")])]),
   ("C", [("bad", PyV.str "x")])]

theorem merge_contrib_keyset_witness :
    ("C" ∈ exC1w.map Prod.fst ∧
      pyHasKey (foldOutputs ["question", "answer"] "agent_answers" exC1w).contrib
        "C" = false) ∧
    pyLookup (merge_stage1_question exC1w).contrib "C"
      = some (PyV.str "No answer received...") :=
  ⟨⟨by decide, by decide⟩,
    (merge_contrib_keyset exC1w).2.1 "C" (by decide) (by decide)⟩

/-- Malformed entries contribute nothing to the merge fold: filtering them
out of the input leaves the fold unchanged. -/
theorem foldl_stepOutput_filter (pk : List String) (dk : String)
    (l : List (String × List (String × PyV))) (m : Merged) :
    l.foldl (stepOutput pk dk) m
      = (l.filter (fun ao => wfOutput pk dk ao.2)).foldl (stepOutput pk dk) m := by
  induction l generalizing m with
  | nil => rfl
  | cons ao l ih =>
    rw [List.foldl_cons, List.filter_cons]
    by_cases hw : wfOutput pk dk ao.2 = true
    · rw [if_pos hw, List.foldl_cons]
      exact ih (stepOutput pk dk m ao)
    · rw [if_neg hw, stepOutput_not_wf pk dk m ao (Bool.not_eq_true _ ▸ hw)]
      exact ih m

/-- Claim C6: malformed per-agent outputs (missing a required key, or a
non-dict contribution field) are excluded from the merge fold for both
mergers: the merger's result is the fold over only the well-formed
entries, filled over all input agent ids.  (Both mergers are total Lean
functions, so no exception can be raised.) -/
theorem mergers_skip_malformed (outputs : List (String × List (String × PyV))) :
    merge_stage1_question outputs
      = ⟨(foldOutputs ["question", "answer"] "agent_answers"
            (outputs.filter (fun ao =>
              wfOutput ["question", "answer"] "agent_answers" ao.2))).fields,
         fillContrib (PyV.str "No answer received...") (outputs.map Prod.fst)
           (foldOutputs ["question", "answer"] "agent_answers"
             (outputs.filter (fun ao =>
               wfOutput ["question", "answer"] "agent_answers" ao.2))).contrib⟩ ∧
    merge_stage2_question outputs
      = ⟨(foldOutputs ["question", "answer", "stage2_prompt"] "agent_opinion"
            (outputs.filter (fun ao =>
              wfOutput ["question", "answer", "stage2_prompt"] "agent_opinion" ao.2))).fields,
         fillContrib (PyV.str "No feedback received...") (outputs.map Prod.fst)
           (foldOutputs ["question", "answer", "stage2_prompt"] "agent_opinion"
             (outputs.filter (fun ao =>
               wfOutput ["question", "answer", "stage2_prompt"] "agent_opinion" ao.2))).contrib⟩ := by
  constructor
  · show mergeCore _ _ _ _ = _
    unfold mergeCore foldOutputs
    rw [← foldl_stepOutput_filter]
  · show mergeCore _ _ _ _ = _
    unfold mergeCore foldOutputs
    rw [← foldl_stepOutput_filter]

/-! ### Cache model (`src/web/api/server_cache.py`, `src/web/api/server.py`)

The DHT helpers (`get_dht_value`, `rewards_key`, `outputs_key`,
`leaderboard_key`, `get_round_and_stage`) live in
`hivemind_exp/dht_utils.py`, which is not among the embedded sources; DHT
reads are therefore modelled as an abstract environment `DhtView` of total
lookup functions from the key parameters to the optionally stored value
(`none` models both an absent key and a failed read).  `hashlib.md5` is
likewise passed in as an abstract `hash : String → String`. -/

structure GossipMsg where
  id : String
  message : String
  node : String
deriving DecidableEq

structure GossipFeed where
  messages : List GossipMsg
  currentRound : Int
  currentStage : Int
deriving DecidableEq

structure LeaderEntry where
  id : String
  score : Int
  values : List Int
deriving DecidableEq

/-- The mutable fields of `Cache` (round/stage start at `-1`,
`last_polled` at `-1`). -/
structure CacheState where
  leaderboard : List LeaderEntry
  gossips : GossipFeed
  current_round : Int
  current_stage : Int
  last_polled : Int
deriving DecidableEq

/-- The slice of the DHT store the cache reads: the round/stage key, and
the rewards / leaderboard / outputs keys indexed by their parameters.
`rewards r s` yields the dict node-id → reward, `outputs node r s` the
dict question → (timestamp, payload) where the payload is represented by
its `answer` entry (the only one the cache reads). -/
structure DhtView where
  roundStage : Option (Int × Int)
  rewards : Int → Int → Option (List (String × Int))
  leaderboard : Int → Int → Option (List (String × Int))
  outputs : String → Int → Int → Option (List (String × Int × String))

/-- `Cache._get_round_and_stage`: on success store the fresh round and
stage; on `ValueError` (modelled by `none`) log and keep the previous
values. -/
def Cache.getRoundAndStage (dht : DhtView) (st : CacheState) : CacheState :=
  match dht.roundStage with
  | some (r, s) => { st with current_round := r, current_stage := s }
  | none => st

/-- `Cache._get_leaderboard`: read the leaderboard key for the current
round/stage and store the reformatted `(id, score)` tuples (`raw or []`
turns an absent value into the empty list). -/
def Cache.getLeaderboard (dht : DhtView) (st : CacheState) : CacheState :=
  let raw := (dht.leaderboard st.current_round st.current_stage).getD []
  { st with leaderboard := raw.map (fun t => LeaderEntry.mk t.1 t.2 []) }

/-- Python `range(lo, hi + 1)` over integers. -/
def intRange (lo hi : Int) : List Int :=
  (List.range (hi + 1 - lo).toNat).map (fun (i : Nat) => lo + (i : Int))

/-- `STAGE_GOSSIP_LIMIT = 20  # Most recent.` -/
def stageGossipLimit : Nat := 20

/-- One step of a stable insertion sort: place `x` after every element
`y` of the (sorted) list with `le y x`.  Used to model Python `sorted`
(any two stable sorts of the same total preorder agree). -/
def pyInsert {α : Type} (le : α → α → Bool) (x : α) : List α → List α
  | [] => [x]
  | y :: ys => if le y x then y :: pyInsert le x ys else x :: y :: ys

/-- Python `sorted(l)` with comparison `le`: a stable sort. -/
def pySorted {α : Type} (le : α → α → Bool) (l : List α) : List α :=
  l.foldl (fun acc x => pyInsert le x acc) []

/-- `sorted(list(outputs.items()), key=lambda t: t[1][0])` — sort the
outputs entries ascending by timestamp. -/
def sortedOutputs (outputs : List (String × Int × String)) :
    List (String × Int × String) :=
  pySorted (fun a b => decide (a.2.1 ≤ b.2.1)) outputs

/-- `sorted_outputs[-STAGE_GOSSIP_LIMIT:]` — the (at most) 20 entries
with the largest timestamps. -/
def keptOutputs (outputs : List (String × Int × String)) :
    List (String × Int × String) :=
  (sortedOutputs outputs).drop ((sortedOutputs outputs).length - stageGossipLimit)

/-- The entries `sorted_outputs[-STAGE_GOSSIP_LIMIT:]` discards. -/
def droppedOutputs (outputs : List (String × Int × String)) :
    List (String × Int × String) :=
  (sortedOutputs outputs).take ((sortedOutputs outputs).length - stageGossipLimit)

/-- One gossip message: the md5 id of `f"{node}_{round}_{stage}_{question}"`
and the text `f"{question}...Answer: {outputs['answer']}"`. -/
def gossipMessage (hash : String → String) (node : String) (rn sn : Int)
    (q : String) (ans : String) : GossipMsg :=
  ⟨hash (node ++ "_" ++ toString rn ++ "_" ++ toString sn ++ "_" ++ q),
   q ++ "...Answer: " ++ ans, node⟩

/-- The `(round_num, stage, node_uuid)` triples whose outputs key the
gossip loop queries: `itertools.product(range(start_round,
current_round + 1), range(0, current_stage + 1), nodes)` with `nodes` the
key set of the current rewards dict (no triples when the rewards value is
absent or empty). -/
def inspectedTriples (dht : DhtView) (r s : Int) : List (Int × Int × String) :=
  match dht.rewards r s with
  | none => []
  | some curr_rewards =>
    if curr_rewards.isEmpty then []
    else
      let nodes := curr_rewards.map Prod.fst
      let start_round : Int := if r < 20 then 0 else r - 20
      (intRange start_round r).flatMap (fun rn =>
        (intRange 0 s).flatMap (fun sn =>
          nodes.map (fun node => (rn, sn, node))))

/-- The body of `Cache._get_gossip`'s `try` block: the `(ts, message)`
pairs accumulated in `round_gossip`.  When the rewards value is absent or
empty the `raise ValueError` is caught and the accumulator stays empty. -/
def gatherGossip (hash : String → String) (dht : DhtView) (r s : Int) :
    List (Int × GossipMsg) :=
  match dht.rewards r s with
  | none => []
  | some curr_rewards =>
    if curr_rewards.isEmpty then []
    else
      let nodes := curr_rewards.map Prod.fst
      let start_round : Int := if r < 20 then 0 else r - 20
      (intRange start_round r).flatMap (fun rn =>
        (intRange 0 s).flatMap (fun sn =>
          nodes.flatMap (fun node =>
            match dht.outputs node rn sn with
            | none => []
            | some outputs =>
              if outputs.isEmpty then []
              else (keptOutputs outputs).map (fun e =>
                (e.2.1, gossipMessage hash node rn sn e.1 e.2.2)))))

/-- `sorted(round_gossip, reverse=True)` — descending by timestamp. -/
def sortGossipDesc (l : List (Int × GossipMsg)) : List (Int × GossipMsg) :=
  pySorted (fun a b => decide (b.1 ≤ a.1)) l

/-- `Cache._get_gossip`: gather, then unconditionally store the sorted
message list together with the current round and stage (the final
`with self.lock` block runs whether or not the `try` body succeeded). -/
def Cache.getGossip (hash : String → String) (dht : DhtView)
    (st : CacheState) : CacheState :=
  let round_gossip := gatherGossip hash dht st.current_round st.current_stage
  { st with gossips :=
      ⟨(sortGossipDesc round_gossip).map Prod.snd,
       st.current_round, st.current_stage⟩ }

/-- `Cache.poll_dht`: one poll cycle, then record the poll time. -/
def Cache.poll_dht (hash : String → String) (dht : DhtView) (now : Int)
    (st : CacheState) : CacheState :=
  let st1 := Cache.getRoundAndStage dht st
  let st2 := Cache.getLeaderboard dht st1
  let st3 := Cache.getGossip hash dht st2
  { st3 with last_polled := now }

/-- The value kinds a reading of `lastPolledAt` can produce: a datetime,
Python `None`, or (as the code stands) the bound method object itself. -/
inductive PyTimeVal where
  | datetime (t : Int)
  | pynone
  | boundMethod
deriving DecidableEq

/-- `Cache.get_last_polled` as written in `server_cache.py`:
`return self.get_last_polled` returns the bound method object itself,
never the stored `last_polled` value. -/
def Cache.get_last_polled (st : CacheState) : PyTimeVal :=
  PyTimeVal.boundMethod

/-- `datetime.now() - lpt`: defined only when `lpt` is a datetime;
subtracting anything else raises `TypeError`. -/
def pySubDatetime (now : Int) : PyTimeVal → Except String Int
  | PyTimeVal.datetime t => Except.ok (now - t)
  | _ => Except.error "TypeError"

/-- The `/api/healthz` handler `get_health` from `server.py`: 500 when the
cache was never polled, 500 when the last poll is more than 5 minutes old,
otherwise OK with the age.  An uncaught `TypeError` is turned into a 500
response by the registered exception handler. -/
def get_health (now : Int) (st : CacheState) :
    Except (Nat × String) (String × Int) :=
  let lpt := Cache.get_last_polled st
  if lpt = PyTimeVal.pynone then Except.error (500, "dht never polled")
  else
    match pySubDatetime now lpt with
    | Except.error e => Except.error (500, e)
    | Except.ok diff =>
      if 5 * 60 < diff then Except.error (500, "dht last poll exceeded 5 minutes")
      else Except.ok ("OK", diff)

/-- The `/api/gossip` handler from `server.py`: it accepts a
`since_round` query parameter but returns the cached gossip feed without
consulting it. -/
def get_gossip (st : CacheState) (since_round : Int) : GossipFeed :=
  st.gossips

/-! ### Sorting lemmas -/

theorem pyInsert_perm {α : Type} (le : α → α → Bool) (x : α) (l : List α) :
    (pyInsert le x l).Perm (x :: l) := by
  induction l with
  | nil => exact List.Perm.refl _
  | cons y ys ih =>
    show (if le y x then y :: pyInsert le x ys else x :: y :: ys).Perm _
    by_cases h : le y x = true
    · rw [if_pos h]
      exact (ih.cons y).trans (List.Perm.swap x y ys)
    · rw [if_neg h]

theorem mem_pyInsert {α : Type} (le : α → α → Bool) (x z : α) (l : List α) :
    z ∈ pyInsert le x l ↔ (z = x ∨ z ∈ l) := by
  rw [(pyInsert_perm le x l).mem_iff, List.mem_cons]

theorem pySorted_perm {α : Type} (le : α → α → Bool) (l : List α) :
    (pySorted le l).Perm l := by
  have key : ∀ (l acc : List α),
      (l.foldl (fun a x => pyInsert le x a) acc).Perm (acc ++ l) := by
    intro l
    induction l with
    | nil => intro acc; simp
    | cons x l ih =>
      intro acc
      have h1 := ih (pyInsert le x acc)
      have h2 : (pyInsert le x acc ++ l).Perm ((x :: acc) ++ l) :=
        (pyInsert_perm le x acc).append_right l
      have h3 : ((x :: acc) ++ l).Perm (acc ++ x :: l) := List.perm_middle.symm
      exact (h1.trans h2).trans h3
  simpa using key l []

theorem pyInsert_pairwise {α : Type} (le : α → α → Bool)
    (htrans : ∀ a b c, le a b = true → le b c = true → le a c = true)
    (htotal : ∀ a b, (le a b || le b a) = true)
    (x : α) (l : List α) (hl : List.Pairwise (fun a b => le a b = true) l) :
    List.Pairwise (fun a b => le a b = true) (pyInsert le x l) := by
  induction l with
  | nil => simp [pyInsert]
  | cons y ys ih =>
    show List.Pairwise _ (if le y x then y :: pyInsert le x ys else x :: y :: ys)
    rcases List.pairwise_cons.mp hl with ⟨hy, hys⟩
    by_cases h : le y x = true
    · rw [if_pos h]
      refine List.pairwise_cons.mpr ⟨?_, ih hys⟩
      intro z hz
      rcases (mem_pyInsert le x z ys).mp hz with hz | hz
      · rw [hz]; exact h
      · exact hy z hz
    · rw [if_neg h]
      have hxy : le x y = true := by
        rcases Bool.or_eq_true_iff.mp (htotal y x) with h' | h'
        · exact absurd h' h
        · exact h'
      refine List.pairwise_cons.mpr ⟨?_, hl⟩
      intro z hz
      rcases List.mem_cons.mp hz with hz | hz
      · rw [hz]; exact hxy
      · exact htrans x y z hxy (hy z hz)

theorem pySorted_pairwise {α : Type} (le : α → α → Bool)
    (htrans : ∀ a b c, le a b = true → le b c = true → le a c = true)
    (htotal : ∀ a b, (le a b || le b a) = true) (l : List α) :
    List.Pairwise (fun a b => le a b = true) (pySorted le l) := by
  have key : ∀ (l acc : List α), List.Pairwise (fun a b => le a b = true) acc →
      List.Pairwise (fun a b => le a b = true)
        (l.foldl (fun a x => pyInsert le x a) acc) := by
    intro l
    induction l with
    | nil => intro acc h; exact h
    | cons x l ih =>
      intro acc h
      exact ih (pyInsert le x acc) (pyInsert_pairwise le htrans htotal x acc h)
  exact key l [] (List.Pairwise.nil)

/-! ### Claims about the cache poll cycle and the API handlers -/

/-- Claim C7: when reading the round/stage key fails, the cache keeps the
previously stored `current_round` and `current_stage` (and every other
field) unchanged — a later read failure never resets an observed value
back to `-1`. -/
theorem round_stage_read_failure_keeps_previous (dht : DhtView)
    (st : CacheState) (h : dht.roundStage = none) :
    Cache.getRoundAndStage dht st = st := by
  unfold Cache.getRoundAndStage
  rw [h]

/-- A DHT view with nothing stored at all. -/
def exDhtEmpty : DhtView :=
  ⟨none, fun _ _ => none, fun _ _ => none, fun _ _ _ => none⟩

/-- A cache state that has already observed round 7 / stage 2. -/
def exStC7 : CacheState := ⟨[], ⟨[], 7, 2⟩, 7, 2, 100⟩

theorem round_stage_read_failure_keeps_previous_witness :
    exDhtEmpty.roundStage = none ∧
      Cache.getRoundAndStage exDhtEmpty exStC7 = exStC7 :=
  ⟨rfl, round_stage_read_failure_keeps_previous exDhtEmpty exStC7 rfl⟩

/-- Claim C10: the `/api/gossip` handler's response is independent of the
`since_round` query parameter — it is accepted but performs no
filtering. -/
theorem gossip_independent_of_since_round (st : CacheState) (a b : Int) :
    get_gossip st a = get_gossip st b := rfl

/-- Claim C3 (showing the code bug): because `Cache.get_last_polled`
returns the bound method object instead of the stored poll time, the
subtraction in `get_health` raises `TypeError` for every cache state —
the health endpoint answers 500 even when the last poll is recent, so it
can never return success as the specification requires. -/
theorem get_health_never_ok (now : Int) (st : CacheState) :
    get_health now st = Except.error (500, "TypeError") := rfl

/-- A previously stored non-empty gossip feed at round 3 / stage 0,
with no rewards value stored in the DHT for that round/stage. -/
def exStC2 : CacheState :=
  ⟨[], ⟨[⟨"id0", "msg0", "n0"⟩], 3, 0⟩, 3, 0, -1⟩

/-- Claim C2, as stated, is false: when the rewards key for the current
round/stage is absent, `_get_gossip` still runs its final store and
replaces the previously stored feed (here non-empty) with an empty
message list. -/
theorem gossip_refresh_counterexample :
    (Cache.getGossip (fun s => s) exDhtEmpty exStC2).gossips ≠
      exStC2.gossips := by decide

/-- Claim C2 (amended): when the rewards value for the current round and
stage is absent (or empty, i.e. falsy), the gossip fetch loop is skipped
and no exception escapes the cycle, but the stored gossip feed is
overwritten with an empty message list tagged with the current round and
stage — it is not left unchanged. -/
theorem gossip_refresh_on_missing_rewards (hash : String → String)
    (dht : DhtView) (st : CacheState)
    (h : dht.rewards st.current_round st.current_stage = none ∨
         dht.rewards st.current_round st.current_stage = some []) :
    Cache.getGossip hash dht st
      = { st with gossips := ⟨[], st.current_round, st.current_stage⟩ } := by
  unfold Cache.getGossip
  have hg : gatherGossip hash dht st.current_round st.current_stage = [] := by
    unfold gatherGossip
    rcases h with h | h <;> rw [h]
    rfl
  rw [hg]
  rfl

theorem gossip_refresh_on_missing_rewards_witness :
    (exDhtEmpty.rewards exStC2.current_round exStC2.current_stage = none ∨
      exDhtEmpty.rewards exStC2.current_round exStC2.current_stage = some []) ∧
    Cache.getGossip (fun s => s) exDhtEmpty exStC2
      = { exStC2 with
          gossips := ⟨[], exStC2.current_round, exStC2.current_stage⟩ } :=
  ⟨Or.inl rfl,
    gossip_refresh_on_missing_rewards (fun s => s) exDhtEmpty exStC2 (Or.inl rfl)⟩

/-- Claim C5: the stored gossip feed is the collected `(ts, message)`
pairs sorted descending by timestamp; when the timestamps are pairwise
distinct (CPython would otherwise fall back to comparing the message
dicts and raise `TypeError`) the order is strictly descending, and an
empty collection yields the empty feed. -/
theorem gossip_feed_sorted_desc (hash : String → String) (dht : DhtView)
    (st : CacheState)
    (hnd : ((gatherGossip hash dht st.current_round st.current_stage).map
      Prod.fst).Nodup) :
    (Cache.getGossip hash dht st).gossips.messages
        = (sortGossipDesc
            (gatherGossip hash dht st.current_round st.current_stage)).map
          Prod.snd ∧
    (sortGossipDesc (gatherGossip hash dht st.current_round
        st.current_stage)).Perm
      (gatherGossip hash dht st.current_round st.current_stage) ∧
    List.Pairwise (fun a b : Int × GossipMsg => b.1 < a.1)
      (sortGossipDesc (gatherGossip hash dht st.current_round
        st.current_stage)) ∧
    (gatherGossip hash dht st.current_round st.current_stage = [] →
      (Cache.getGossip hash dht st).gossips.messages = []) := by
  set l := gatherGossip hash dht st.current_round st.current_stage with hl
  have hperm : (sortGossipDesc l).Perm l := pySorted_perm _ l
  refine ⟨rfl, hperm, ?_, ?_⟩
  · have hsorted : List.Pairwise
        (fun a b : Int × GossipMsg => (decide (b.1 ≤ a.1)) = true)
        (sortGossipDesc l) := by
      apply pySorted_pairwise
      · intro a b c hab hbc
        rw [decide_eq_true_eq] at *
        omega
      · intro a b
        rcases Int.le_total b.1 a.1 with h | h
        · rw [Bool.or_eq_true_iff]; exact Or.inl (by rw [decide_eq_true_eq]; exact h)
        · rw [Bool.or_eq_true_iff]; exact Or.inr (by rw [decide_eq_true_eq]; exact h)
    have hndsorted : ((sortGossipDesc l).map Prod.fst).Nodup :=
      ((hperm.map Prod.fst).nodup_iff).mpr hnd
    have hpw : List.Pairwise (fun a b : Int × GossipMsg => a.1 ≠ b.1)
        (sortGossipDesc l) := List.pairwise_map.mp hndsorted
    refine (hsorted.and hpw).imp ?_
    intro a b hab
    rcases hab with ⟨hle, hne⟩
    rw [decide_eq_true_eq] at hle
    omega
  · intro h
    show (sortGossipDesc l).map Prod.snd = []
    rw [h]
    rfl

/-- A DHT view with one rewarded node at round 0 / stage 0 and two
outputs with distinct timestamps. -/
def exDhtC5 : DhtView :=
  { roundStage := none,
    rewards := fun r s => if r = 0 ∧ s = 0 then some [("n", 1)] else none,
    leaderboard := fun _ _ => none,
    outputs := fun node r s =>
      if node = "n" ∧ r = 0 ∧ s = 0 then
        some [("q1", (1, "a1")), ("q2", (2, "a2"))]
      else none }

/-- A cache state currently at round 0 / stage 0. -/
def exStC5 : CacheState := ⟨[], ⟨[], -1, -1⟩, 0, 0, -1⟩

theorem gossip_feed_sorted_desc_witness :
    ((gatherGossip (fun s => s) exDhtC5 exStC5.current_round
        exStC5.current_stage).map Prod.fst).Nodup ∧
    List.Pairwise (fun a b : Int × GossipMsg => b.1 < a.1)
      (sortGossipDesc (gatherGossip (fun s => s) exDhtC5
        exStC5.current_round exStC5.current_stage)) :=
  ⟨by decide,
    (gossip_feed_sorted_desc (fun s => s) exDhtC5 exStC5 (by decide)).2.2.1⟩

theorem mem_intRange (lo b x : Int) :
    x ∈ intRange lo b ↔ (lo ≤ x ∧ x ≤ b) := by
  unfold intRange
  constructor
  · intro hx
    rcases List.mem_map.mp hx with ⟨i, hi, rfl⟩
    have hlt := List.mem_range.mp hi
    omega
  · rintro ⟨h1, h2⟩
    refine List.mem_map.mpr ⟨(x - lo).toNat, List.mem_range.mpr (by omega), by omega⟩

theorem flatMap_congr {α β : Type} {l : List α} {f g : α → List β}
    (h : ∀ x ∈ l, f x = g x) : l.flatMap f = l.flatMap g := by
  induction l with
  | nil => rfl
  | cons x l ih =>
    rw [List.flatMap_cons, List.flatMap_cons, h x (List.mem_cons_self x l),
      ih (fun y hy => h y (List.mem_cons_of_mem x hy))]

theorem mem_inspectedTriples (dht : DhtView) (r s : Int)
    (rewards : List (String × Int)) (hr : dht.rewards r s = some rewards)
    (hne : rewards ≠ []) (rn sn : Int) (node : String) :
    (rn, sn, node) ∈ inspectedTriples dht r s ↔
      (max 0 (r - 20) ≤ rn ∧ rn ≤ r ∧ 0 ≤ sn ∧ sn ≤ s ∧
        node ∈ rewards.map Prod.fst) := by
  unfold inspectedTriples
  rw [hr]
  dsimp only
  rw [if_neg (fun hcontra => hne (List.isEmpty_iff.mp hcontra))]
  simp only [List.mem_flatMap, List.mem_map, mem_intRange, Prod.mk.injEq]
  constructor
  · rintro ⟨rn', ⟨h1, h2⟩, sn', ⟨h3, h4⟩, node', hnode', rfl, rfl, rfl⟩
    refine ⟨?_, h2, h3, h4, hnode'⟩
    by_cases hc : r < 20
    · rw [if_pos hc] at h1; omega
    · rw [if_neg hc] at h1; omega
  · rintro ⟨h1, h2, h3, h4, h5⟩
    refine ⟨rn, ⟨?_, h2⟩, sn, ⟨h3, h4⟩, node, h5, rfl, rfl, rfl⟩
    by_cases hc : r < 20
    · rw [if_pos hc]; omega
    · rw [if_neg hc]; omega

/-- The timestamp-ascending comparison used on the outputs entries is
transitive. -/
theorem tsLeTrans : ∀ a b c : String × Int × String,
    (decide (a.2.1 ≤ b.2.1)) = true → (decide (b.2.1 ≤ c.2.1)) = true →
    (decide (a.2.1 ≤ c.2.1)) = true := by
  intro a b c hab hbc
  rw [decide_eq_true_eq] at *
  omega

/-- The timestamp-ascending comparison used on the outputs entries is
total. -/
theorem tsLeTotal : ∀ a b : String × Int × String,
    ((decide (a.2.1 ≤ b.2.1)) || (decide (b.2.1 ≤ a.2.1))) = true := by
  intro a b
  rcases Int.le_total a.2.1 b.2.1 with h | h
  · rw [Bool.or_eq_true_iff]
    exact Or.inl (by rw [decide_eq_true_eq]; exact h)
  · rw [Bool.or_eq_true_iff]
    exact Or.inr (by rw [decide_eq_true_eq]; exact h)

/-- `sorted_outputs[-20:]` keeps at most 20 entries, the kept and dropped
entries together are exactly the outputs entries, and every dropped entry
has a timestamp no newer than every kept one. -/
theorem keptOutputs_spec (outs : List (String × Int × String)) :
    (keptOutputs outs).length ≤ stageGossipLimit ∧
    (droppedOutputs outs ++ keptOutputs outs).Perm outs ∧
    ∀ x ∈ droppedOutputs outs, ∀ y ∈ keptOutputs outs, x.2.1 ≤ y.2.1 := by
  refine ⟨?_, ?_, ?_⟩
  · unfold keptOutputs
    rw [List.length_drop]
    omega
  · unfold droppedOutputs keptOutputs
    rw [List.take_append_drop]
    exact pySorted_perm _ outs
  · have hsorted : List.Pairwise
        (fun a b : String × Int × String => (decide (a.2.1 ≤ b.2.1)) = true)
        (sortedOutputs outs) := pySorted_pairwise _ tsLeTrans tsLeTotal outs
    have hsplit := List.take_append_drop
      ((sortedOutputs outs).length - stageGossipLimit) (sortedOutputs outs)
    rw [← hsplit] at hsorted
    have h3 := (List.pairwise_append.mp hsorted).2.2
    intro x hx y hy
    have := h3 x hx y hy
    rw [decide_eq_true_eq] at this
    exact this

/-- Claim C4: with a non-empty rewards map at the current round `r` and
stage `s`, gossip assembly queries outputs keys exactly for the triples
with round in `[max 0 (r-20), r]`, stage in `[0, s]` and node a key of
the rewards map (so for `r = 25`, `s = 1`: rounds 5..25, stages 0..1);
the collected gossip depends on the outputs store only at those triples;
and per outputs key at most the 20 entries with the largest timestamps
are kept. -/
theorem gossip_lookback_window (dht : DhtView) (r s : Int)
    (rewards : List (String × Int)) (hr : dht.rewards r s = some rewards)
    (hne : rewards ≠ []) :
    (∀ rn sn node, (rn, sn, node) ∈ inspectedTriples dht r s ↔
      (max 0 (r - 20) ≤ rn ∧ rn ≤ r ∧ 0 ≤ sn ∧ sn ≤ s ∧
        node ∈ rewards.map Prod.fst)) ∧
    (∀ dht₂ : DhtView, dht₂.rewards r s = some rewards →
      (∀ t ∈ inspectedTriples dht r s,
        dht₂.outputs t.2.2 t.1 t.2.1 = dht.outputs t.2.2 t.1 t.2.1) →
      ∀ hash, gatherGossip hash dht₂ r s = gatherGossip hash dht r s) ∧
    (∀ outs : List (String × Int × String),
      (keptOutputs outs).length ≤ stageGossipLimit ∧
      (droppedOutputs outs ++ keptOutputs outs).Perm outs ∧
      ∀ x ∈ droppedOutputs outs, ∀ y ∈ keptOutputs outs, x.2.1 ≤ y.2.1) := by
  refine ⟨mem_inspectedTriples dht r s rewards hr hne, ?_, keptOutputs_spec⟩
  intro dht₂ h2r houts hash
  unfold gatherGossip
  rw [hr, h2r]
  dsimp only
  rw [if_neg (fun hcontra => hne (List.isEmpty_iff.mp hcontra)),
    if_neg (fun hcontra => hne (List.isEmpty_iff.mp hcontra))]
  apply flatMap_congr
  intro rn hrn
  apply flatMap_congr
  intro sn hsn
  apply flatMap_congr
  intro node hnode
  have hmem : (rn, sn, node) ∈ inspectedTriples dht r s := by
    unfold inspectedTriples
    rw [hr]
    dsimp only
    rw [if_neg (fun hcontra => hne (List.isEmpty_iff.mp hcontra))]
    exact List.mem_flatMap.mpr ⟨rn, hrn,
      List.mem_flatMap.mpr ⟨sn, hsn, List.mem_map.mpr ⟨node, hnode, rfl⟩⟩⟩
  rw [houts (rn, sn, node) hmem]

/-- A DHT view whose rewards at round 25 / stage 1 list the single node
`n`. -/
def exDhtC4 : DhtView :=
  { roundStage := none,
    rewards := fun r s => if r = 25 ∧ s = 1 then some [("n", 1)] else none,
    leaderboard := fun _ _ => none,
    outputs := fun _ _ _ => none }

theorem gossip_lookback_window_witness :
    (exDhtC4.rewards 25 1 = some [("n", 1)] ∧
      ([("n", 1)] : List (String × Int)) ≠ []) ∧
    ((5, 0, "n") ∈ inspectedTriples exDhtC4 25 1 ↔
      (max 0 (25 - 20) ≤ (5 : Int) ∧ (5 : Int) ≤ 25 ∧ (0 : Int) ≤ 0 ∧
        (0 : Int) ≤ 1 ∧ "n" ∈ ([("n", 1)] : List (String × Int)).map Prod.fst)) :=
  ⟨⟨by decide, by decide⟩,
    (gossip_lookback_window exDhtC4 25 1 [("n", 1)] (by decide) (by decide)).1
      5 0 "n"⟩

/-! ### Peer discovery (`src/hivemind_exp/peer_discovery/discovery.py`) -/

/-- `random.sample(l, k)`: `k` selections without replacement.  The random
generator is an explicit parameter giving the raw index drawn at each
step. -/
def randomSample (rng : Nat → Nat) : Nat → List String → List String
  | 0, _ => []
  | k + 1, l =>
    if h : l = [] then []
    else
      let x := l.get ⟨rng k % l.length, Nat.mod_lt _ (List.length_pos.mpr h)⟩
      x :: randomSample rng k (l.erase x)

/-- `str(p).startswith('/')`: the first character is a slash.  (Defined
on the character list so that it evaluates inside the kernel.) -/
def strStartsWithSlash (p : String) : Bool :=
  match p.data with
  | [] => false
  | c :: _ => c == '/'

/-- `PeerDiscovery.get_peers`: filter the discovered-peer set down to the
non-empty multiaddrs (`p and str(p).startswith('/')`).  The set
`self.discovered_peers` (after `_discover_dht_peers` has updated it) is
passed in as a duplicate-free list. -/
def PeerDiscovery.get_peers (discovered : List String) : List String :=
  discovered.filter (fun p => (!(p == "")) && strStartsWithSlash p)

/-- `PeerDiscovery.get_bootstrap_peers`: all known peers when there are at
most `count` of them, otherwise a random sample of size `count`. -/
def PeerDiscovery.get_bootstrap_peers (rng : Nat → Nat)
    (discovered : List String) (count : Nat) : List String :=
  let peers := PeerDiscovery.get_peers discovered
  if peers.length ≤ count then peers
  else randomSample rng count peers

theorem randomSample_subset (rng : Nat → Nat) :
    ∀ (k : Nat) (l : List String), randomSample rng k l ⊆ l := by
  intro k
  induction k with
  | zero => intro l x hx; simp [randomSample] at hx
  | succ k ih =>
    intro l x hx
    rw [randomSample] at hx
    by_cases h : l = []
    · rw [dif_pos h] at hx; simp at hx
    · rw [dif_neg h] at hx
      rcases List.mem_cons.mp hx with hx | hx
      · rw [hx]; exact List.get_mem l _ _
      · exact List.erase_subset _ _ (ih _ hx)

theorem randomSample_length (rng : Nat → Nat) :
    ∀ (k : Nat) (l : List String), k ≤ l.length →
      (randomSample rng k l).length = k := by
  intro k
  induction k with
  | zero => intro l h; rfl
  | succ k ih =>
    intro l h
    rw [randomSample]
    have hne : l ≠ [] := by
      intro hcontra
      rw [hcontra] at h
      simp at h
    rw [dif_neg hne]
    have hx : l.get ⟨rng k % l.length, Nat.mod_lt _ (List.length_pos.mpr hne)⟩ ∈ l :=
      List.get_mem l _ _
    rw [List.length_cons, ih _ (by rw [List.length_erase_of_mem hx]; omega)]

theorem randomSample_nodup (rng : Nat → Nat) :
    ∀ (k : Nat) (l : List String), l.Nodup →
      (randomSample rng k l).Nodup := by
  intro k
  induction k with
  | zero => intro l h; exact List.nodup_nil
  | succ k ih =>
    intro l hnd
    rw [randomSample]
    by_cases h : l = []
    · rw [dif_pos h]; exact List.nodup_nil
    · rw [dif_neg h]
      refine List.nodup_cons.mpr ⟨?_, ih _ (hnd.erase _)⟩
      intro hmem
      exact hnd.not_mem_erase (randomSample_subset rng k _ hmem)

/-- Claim C8: `get_bootstrap_peers(count)` returns at most `count`
entries, all drawn from `get_peers()`'s output, without duplicates, and
returns every known peer when there are at most `count` of them. -/
theorem get_bootstrap_peers_spec (rng : Nat → Nat) (discovered : List String)
    (count : Nat) (hnd : discovered.Nodup) :
    (PeerDiscovery.get_bootstrap_peers rng discovered count).length ≤ count ∧
    PeerDiscovery.get_bootstrap_peers rng discovered count
      ⊆ PeerDiscovery.get_peers discovered ∧
    (PeerDiscovery.get_bootstrap_peers rng discovered count).Nodup ∧
    ((PeerDiscovery.get_peers discovered).length ≤ count →
      PeerDiscovery.get_bootstrap_peers rng discovered count
        = PeerDiscovery.get_peers discovered) := by
  have hpnd : (PeerDiscovery.get_peers discovered).Nodup := hnd.filter _
  unfold PeerDiscovery.get_bootstrap_peers
  by_cases hle : (PeerDiscovery.get_peers discovered).length ≤ count
  · rw [if_pos hle]
    exact ⟨hle, fun x hx => hx, hpnd, fun _ => rfl⟩
  · rw [if_neg hle]
    refine ⟨?_, randomSample_subset rng count _,
      randomSample_nodup rng count _ hpnd, fun h => absurd h hle⟩
    rw [randomSample_length rng count _ (by omega)]

/-- A discovered-peer set with two valid multiaddrs, one entry without
the leading slash and one empty entry. -/
def exPeersC8 : List String := ["/ip4/a", "/ip4/b", "bad", ""]

theorem get_bootstrap_peers_spec_witness :
    exPeersC8.Nodup ∧
      PeerDiscovery.get_bootstrap_peers (fun _ => 0) exPeersC8 3
        = PeerDiscovery.get_peers exPeersC8 :=
  ⟨by decide,
    (get_bootstrap_peers_spec (fun _ => 0) exPeersC8 3 (by decide)).2.2.2
      (by decide)⟩

/-! ### Heap model of the mergers (purity / non-mutation)

To settle that the mergers do not mutate their input and that a second
call on the same input produces the same output, the mergers are
re-embedded against an explicit heap of mutable Python dictionaries:
addresses are indices into a list of dicts, `merged` and its inner
contribution dict are allocated fresh at the end of the heap, and every
dict operation of the source is a read or a write on the heap. -/

/-- A value in a dict slot of the heap model: Python `None`, an opaque
non-dict object, a string, or a reference to a dict living on the heap. -/
inductive HV where
  | none
  | obj (n : Nat)
  | str (s : String)
  | ref (a : Nat)
deriving DecidableEq

abbrev HDict := List (String × HV)

abbrev Heap := List HDict

/-- Dereference address `a`. -/
def hget (h : Heap) (a : Nat) : Option HDict := h[a]?

/-- Overwrite the dict at address `a` (in-bounds addresses only). -/
def hset (h : Heap) (a : Nat) (d : HDict) : Heap := h.set a d

def hdLookup (d : HDict) (k : String) : Option HV :=
  (d.find? (fun p => p.1 == k)).map (fun p => p.2)

def hdHasKey (d : HDict) (k : String) : Bool := (hdLookup d k).isSome

/-- `d[k] = v` on a heap dict. -/
def hdSet (d : HDict) (k : String) (v : HV) : HDict :=
  if hdHasKey d k then d.map (fun p => if p.1 == k then (k, v) else p)
  else d ++ [(k, v)]

/-- `d.update(e)` on heap dicts. -/
def hdUpdate (d e : HDict) : HDict :=
  e.foldl (fun acc p => hdSet acc p.1 p.2) d

/-- One iteration of the heap merge loop on the agent value `v` (the
value stored for one agent in the `outputs` dict).  `A1` is the address
of the freshly allocated `merged` dict.  The iteration fails (Python
would raise) when `v` does not reference a dict; otherwise it mirrors the
source: skip unless every key of `merged` is in `o` and `o[dk]` is a
dict, else assign the scalar keys in `merged` and fold `o[dk]` into the
dict `merged[dk]` references. -/
def mergeHeapEntry (pk : List String) (dk : String) (A1 : Nat) (g : Heap)
    (v : HV) : Option Heap :=
  match v with
  | HV.ref r =>
    match hget g r with
    | some od =>
      match hget g A1 with
      | some md =>
        if md.all (fun kv => hdHasKey od kv.1) then
          match hdLookup od dk with
          | some (HV.ref ir) =>
            match hget g ir with
            | some idct =>
              let md1 := pk.foldl
                (fun m k => hdSet m k ((hdLookup od k).getD HV.none)) md
              let g1 := hset g A1 md1
              match hdLookup md1 dk with
              | some (HV.ref t) =>
                match hget g1 t with
                | some td => some (hset g1 t (hdUpdate td idct))
                | Option.none => some g1
              | _ => some g1
            | Option.none => some g
          | _ => some g
        else some g
      | Option.none => none
    | _ => none
  | _ => none

/-- The merge loop over the entries of the `outputs` dict. -/
def mergeHeapLoop (pk : List String) (dk : String) (A1 : Nat) :
    Heap → List (String × HV) → Option Heap
  | g, [] => some g
  | g, e :: rest =>
    match mergeHeapEntry pk dk A1 g e.2 with
    | some g1 => mergeHeapLoop pk dk A1 g1 rest
    | Option.none => none

/-- One iteration of the fill loop: `if agent not in merged[dk]:
merged[dk][agent] = placeholder`, reading `merged` from the heap. -/
def fillHeapStep (dk : String) (ph : HV) (A1 : Nat) (g : Heap)
    (agent : String) : Heap :=
  match hget g A1 with
  | some md =>
    match hdLookup md dk with
    | some (HV.ref t) =>
      match hget g t with
      | some td =>
        if hdHasKey td agent then g else hset g t (hdSet td agent ph)
      | Option.none => g
    | _ => g
  | Option.none => g

/-- The heap-level merger: read the `outputs` dict at `oref`, allocate
the empty contribution dict and the `merged` dict (with the scalar keys
bound to `None` and `dk` bound to a reference to the contribution
dict), run the merge loop, then the fill loop, and return the final heap
together with the address of `merged`. -/
def mergeHeap (pk : List String) (dk : String) (ph : HV) (h : Heap)
    (oref : Nat) : Option (Heap × Nat) :=
  match hget h oref with
  | Option.none => none
  | some outs =>
    let a0 := h.length
    let h1 := h ++ [[]]
    let a1 := h1.length
    let h2 := h1 ++ [pk.map (fun k => (k, HV.none)) ++ [(dk, HV.ref a0)]]
    match mergeHeapLoop pk dk a1 h2 outs with
    | Option.none => none
    | some g => some ((outs.map Prod.fst).foldl (fillHeapStep dk ph a1) g, a1)

/-- `merge_stage1_question` against the explicit heap. -/
def merge_stage1_heap (h : Heap) (oref : Nat) : Option (Heap × Nat) :=
  mergeHeap ["question", "answer"] "agent_answers"
    (HV.str "No answer received...") h oref

/-- `merge_stage2_question` against the explicit heap. -/
def merge_stage2_heap (h : Heap) (oref : Nat) : Option (Heap × Nat) :=
  mergeHeap ["question", "answer", "stage2_prompt"] "agent_opinion"
    (HV.str "No feedback received...") h oref

/-- Read one agent's raw output through the heap: the referenced dict
and, when its `dk` entry references a dict, that dict's contents. -/
def readEntry (dk : String) (h : Heap) (v : HV) :
    Option (HDict × Option HDict) :=
  match v with
  | HV.ref r =>
    (hget h r).map (fun od =>
      (od, match hdLookup od dk with
           | some (HV.ref ir) => hget h ir
           | _ => none))
  | _ => none

/-- Read every agent's raw output; fails if any agent value is not a
dict reference. -/
def readAll (dk : String) (h : Heap) :
    List (String × HV) → Option (List (HDict × Option HDict))
  | [] => some []
  | e :: rest =>
    match readEntry dk h e.2 with
    | Option.none => none
    | some x =>
      match readAll dk h rest with
      | Option.none => none
      | some xs => some (x :: xs)

/-- The merge loop as a pure fold on `(merged core, contribution dict)`
pairs; `e` is one read raw output. -/
def pureStep (pk : List String) (dk : String) (st : HDict × HDict)
    (e : HDict × Option HDict) : HDict × HDict :=
  if (pk ++ [dk]).all (fun k => hdHasKey e.1 k) then
    match e.2 with
    | some idct =>
      (pk.foldl (fun m k => hdSet m k ((hdLookup e.1 k).getD HV.none)) st.1,
       hdUpdate st.2 idct)
    | Option.none => st
  else st

/-- The fill loop as a pure fold on the contribution dict. -/
def fillPure (ph : HV) (agents : List String) (inner : HDict) : HDict :=
  agents.foldl (fun i a => if hdHasKey i a then i else hdSet i a ph) inner

/-- Normal form of the heap merger: the input heap is extended with
exactly two fresh dicts — the filled contribution dict at address
`h.length` and the merged dict at `h.length + 1` — whose contents are a
pure function of the raw outputs read from the input heap. -/
def mergePure (pk : List String) (dk : String) (ph : HV) (h : Heap)
    (oref : Nat) : Option (Heap × Nat) :=
  match hget h oref with
  | Option.none => none
  | some outs =>
    match readAll dk h outs with
    | Option.none => none
    | some es =>
      let st := es.foldl (pureStep pk dk) (pk.map (fun k => (k, HV.none)), [])
      let inner := fillPure ph (outs.map Prod.fst) st.2
      some (h ++ [inner, st.1 ++ [(dk, HV.ref h.length)]], h.length + 1)

/-- The agent value `v` only references dicts of the first `n` heap
cells (and so does the contribution field of the dict it references). -/
def valOK (dk : String) (n : Nat) (h : Heap) (v : HV) : Bool :=
  match v with
  | HV.ref r =>
    decide (r < n) &&
      (match hget h r with
       | some od =>
         match hdLookup od dk with
         | some (HV.ref ir) => decide (ir < n)
         | _ => true
       | Option.none => true)
  | _ => true

/-- Well-typedness of the merger input: every agent value of the
`outputs` dict at `oref` stays within the existing heap.  (In CPython
every reference points at an existing object, so this always holds.) -/
def inputOK (dk : String) (h : Heap) (oref : Nat) : Bool :=
  match hget h oref with
  | some outs => outs.all (fun p => valOK dk h.length h p.2)
  | Option.none => true

/-- The observable value of the merger's result: the merged dict with
the `dk` reference slot replaced by the contents of the contribution
dict it points at (Python compares dicts by value). -/
def denoteMerged (dk : String) (g : Heap) (r : Nat) :
    Option (HDict × HDict) :=
  match hget g r with
  | Option.none => none
  | some md =>
    match hdLookup md dk with
    | some (HV.ref t) =>
      (hget g t).map (fun td => (md.filter (fun p => !(p.1 == dk)), td))
    | _ => some (md.filter (fun p => !(p.1 == dk)), [])

/-! ### Heap-dict lemmas -/

theorem hdLookup_cons (p : String × HV) (d : HDict) (k : String) :
    hdLookup (p :: d) k = if p.1 == k then some p.2 else hdLookup d k := by
  by_cases h : (p.1 == k) = true <;> simp [hdLookup, List.find?, h]

theorem hdHasKey_cons (p : String × HV) (d : HDict) (k : String) :
    hdHasKey (p :: d) k = (p.1 == k || hdHasKey d k) := by
  by_cases h : (p.1 == k) = true <;> simp [hdHasKey, hdLookup, List.find?, h]

theorem hdHasKey_iff_mem (d : HDict) (k : String) :
    hdHasKey d k = true ↔ k ∈ d.map Prod.fst := by
  induction d with
  | nil => simp [hdHasKey, hdLookup]
  | cons p d ih =>
    rw [hdHasKey_cons]
    simp only [List.map_cons, List.mem_cons, Bool.or_eq_true, beq_iff_eq, ih]
    constructor
    · rintro (h | h)
      · exact Or.inl h.symm
      · exact Or.inr h
    · rintro (h | h)
      · exact Or.inl h.symm
      · exact Or.inr h

theorem hdHasKey_append (c e : HDict) (k : String) :
    hdHasKey (c ++ e) k = (hdHasKey c k || hdHasKey e k) := by
  induction c with
  | nil => simp [hdHasKey, hdLookup]
  | cons p c ih => simp [hdHasKey_cons, ih, Bool.or_assoc]

theorem hdLookup_none_of_not_has (d : HDict) (k : String)
    (h : hdHasKey d k = false) : hdLookup d k = none := by
  unfold hdHasKey at h
  exact Option.not_isSome_iff_eq_none.mp (by rw [h]; exact Bool.false_ne_true)

theorem hdLookup_append_of_has (c e : HDict) (k : String)
    (h : hdHasKey c k = true) : hdLookup (c ++ e) k = hdLookup c k := by
  induction c with
  | nil => simp [hdHasKey, hdLookup] at h
  | cons p c ih =>
    rw [List.cons_append, hdLookup_cons, hdLookup_cons]
    by_cases hp : (p.1 == k) = true
    · rw [if_pos hp, if_pos hp]
    · rw [if_neg hp, if_neg hp]
      rw [hdHasKey_cons] at h
      rcases Bool.or_eq_true_iff.mp h with h' | h'
      · exact absurd h' hp
      · exact ih h'

theorem hdLookup_append_of_not (c e : HDict) (k : String)
    (h : hdHasKey c k = false) : hdLookup (c ++ e) k = hdLookup e k := by
  induction c with
  | nil => simp
  | cons p c ih =>
    rw [hdHasKey_cons, Bool.or_eq_false_iff] at h
    rw [List.cons_append, hdLookup_cons, if_neg (by simp [h.1])]
    exact ih h.2

theorem hdLookup_append_last (c : HDict) (dk : String) (v : HV)
    (h : dk ∉ c.map Prod.fst) :
    hdLookup (c ++ [(dk, v)]) dk = some v := by
  have hnot : hdHasKey c dk = false := by
    cases hb : hdHasKey c dk
    · rfl
    · exact absurd ((hdHasKey_iff_mem c dk).mp hb) h
  rw [hdLookup_append_of_not c _ dk hnot, hdLookup_cons, if_pos (beq_self_eq_true dk)]

theorem hdSet_map_fst (d : HDict) (k : String) (v : HV)
    (h : hdHasKey d k = true) :
    (hdSet d k v).map Prod.fst = d.map Prod.fst := by
  unfold hdSet
  rw [if_pos h, List.map_map]
  apply List.map_congr_left
  intro p hp
  simp only [Function.comp_apply]
  by_cases hpk : (p.1 == k) = true
  · rw [if_pos hpk]
    exact (beq_iff_eq.mp hpk).symm
  · rw [if_neg hpk]

theorem hdHasKey_hdSet_of_has (d : HDict) (k : String) (v : HV) (x : String)
    (h : hdHasKey d k = true) :
    hdHasKey (hdSet d k v) x = hdHasKey d x := by
  cases hb : hdHasKey d x
  · cases hb' : hdHasKey (hdSet d k v) x
    · rfl
    · exfalso
      have hm := (hdHasKey_iff_mem _ x).mp hb'
      rw [hdSet_map_fst d k v h] at hm
      have hcontra := (hdHasKey_iff_mem d x).mpr hm
      rw [hb] at hcontra
      exact Bool.false_ne_true hcontra
  · have hm := (hdHasKey_iff_mem d x).mp hb
    rw [← hdSet_map_fst d k v h] at hm
    exact (hdHasKey_iff_mem _ x).mpr hm

theorem hdLookup_map_set_ne (d : HDict) (k : String) (v : HV) (x : String)
    (hne : x ≠ k) :
    hdLookup (d.map (fun p => if p.1 == k then (k, v) else p)) x
      = hdLookup d x := by
  induction d with
  | nil => rfl
  | cons p d ih =>
    rw [List.map_cons, hdLookup_cons, hdLookup_cons]
    by_cases hpk : (p.1 == k) = true
    · rw [if_pos hpk]
      have h1 : (k == x) = false := by
        rw [beq_eq_false_iff_ne]
        exact fun hc => hne hc.symm
      have h2 : (p.1 == x) = false := by
        rw [beq_eq_false_iff_ne, beq_iff_eq.mp hpk]
        exact fun hc => hne hc.symm
      show (if ((k, v).1 == x) = true then some (k, v).2 else _) = _
      rw [if_neg (by simp [h1]), if_neg (by simp [h2])]
      exact ih
    · rw [if_neg hpk]
      by_cases hpx : (p.1 == x) = true
      · rw [if_pos hpx, if_pos hpx]
      · rw [if_neg hpx, if_neg hpx]
        exact ih

theorem hdLookup_hdSet_ne (d : HDict) (k : String) (v : HV) (x : String)
    (hne : x ≠ k) : hdLookup (hdSet d k v) x = hdLookup d x := by
  unfold hdSet
  by_cases h : hdHasKey d k = true
  · rw [if_pos h]
    exact hdLookup_map_set_ne d k v x hne
  · rw [if_neg h]
    by_cases hx : hdHasKey d x = true
    · exact hdLookup_append_of_has d _ x hx
    · have hxf : hdHasKey d x = false := Bool.not_eq_true _ ▸ hx
      rw [hdLookup_append_of_not d _ x hxf, hdLookup_cons]
      rw [if_neg (by show ¬(k == x) = true; simp; exact fun hc => hne hc.symm)]
      rw [hdLookup_none_of_not_has d x hxf]
      rfl

theorem hdSet_append_entry (c : HDict) (dk : String) (rv : HV) (k : String)
    (v : HV) (hk : hdHasKey c k = true) (hne : k ≠ dk) :
    hdSet (c ++ [(dk, rv)]) k v = hdSet c k v ++ [(dk, rv)] := by
  have h1 : hdHasKey (c ++ [(dk, rv)]) k = true := by
    rw [hdHasKey_append, hk]
    rfl
  unfold hdSet
  rw [if_pos h1, if_pos hk, List.map_append]
  congr 1
  have hdkk : (dk == k) = false := by
    rw [beq_eq_false_iff_ne]
    exact fun hc => hne hc.symm
  simp only [List.map_cons, List.map_nil]
  rw [if_neg (by simp [hdkk])]

theorem all_fst_eq (l : List (String × HV)) (f : String → Bool) :
    l.all (fun kv => f kv.1) = (l.map Prod.fst).all f := by
  induction l with
  | nil => rfl
  | cons p l ih => simp [ih]

theorem foldl_hdSet_append (pk : List String) (f : String → HV) (mdc : HDict)
    (dk : String) (rv : HV) (hdk : dk ∉ pk)
    (hks : ∀ k ∈ pk, hdHasKey mdc k = true) :
    pk.foldl (fun m k => hdSet m k (f k)) (mdc ++ [(dk, rv)])
      = pk.foldl (fun m k => hdSet m k (f k)) mdc ++ [(dk, rv)] := by
  induction pk generalizing mdc with
  | nil => rfl
  | cons k pk ih =>
    have hkmem : hdHasKey mdc k = true := hks k (List.mem_cons_self k pk)
    have hkdk : k ≠ dk := fun hc => hdk (hc ▸ List.mem_cons_self k pk)
    rw [List.foldl_cons, List.foldl_cons,
      hdSet_append_entry mdc dk rv k (f k) hkmem hkdk]
    exact ih (hdSet mdc k (f k))
      (fun hc => hdk (List.mem_cons_of_mem k hc))
      (fun x hx => by
        rw [hdHasKey_hdSet_of_has mdc k (f k) x hkmem]
        exact hks x (List.mem_cons_of_mem k hx))

theorem foldl_hdSet_map_fst (pk : List String) (f : String → HV) (mdc : HDict)
    (hks : ∀ k ∈ pk, hdHasKey mdc k = true) :
    (pk.foldl (fun m k => hdSet m k (f k)) mdc).map Prod.fst
      = mdc.map Prod.fst := by
  induction pk generalizing mdc with
  | nil => rfl
  | cons k pk ih =>
    have hkmem : hdHasKey mdc k = true := hks k (List.mem_cons_self k pk)
    rw [List.foldl_cons,
      ih (hdSet mdc k (f k)) (fun x hx => by
        rw [hdHasKey_hdSet_of_has mdc k (f k) x hkmem]
        exact hks x (List.mem_cons_of_mem k hx)),
      hdSet_map_fst mdc k (f k) hkmem]

/-! ### Heap-access lemmas -/

theorem hget_append_lt (h h2 : Heap) (a : Nat) (ha : a < h.length) :
    hget (h ++ h2) a = hget h a := by
  unfold hget
  rw [List.getElem?_append, if_pos ha]

theorem hget_append2_a0 (h : Heap) (x y : HDict) :
    hget (h ++ [x, y]) h.length = some x := by
  unfold hget
  rw [List.getElem?_append_right (Nat.le_refl _)]
  simp

theorem hget_append2_a1 (h : Heap) (x y : HDict) :
    hget (h ++ [x, y]) (h.length + 1) = some y := by
  unfold hget
  rw [List.getElem?_append_right (Nat.le_succ_of_le (Nat.le_refl _))]
  simp

theorem set_append_add (h l : Heap) (i : Nat) (z : HDict) :
    (h ++ l).set (h.length + i) z = h ++ l.set i z := by
  induction h with
  | nil => simp
  | cons a h ih =>
    show ((a :: (h ++ l)).set (h.length + 1 + i) z) = a :: (h ++ l.set i z)
    have harith : h.length + 1 + i = (h.length + i) + 1 := by omega
    rw [harith]
    show a :: ((h ++ l).set (h.length + i) z) = a :: (h ++ l.set i z)
    rw [ih]

theorem hset_append2_a0 (h : Heap) (x y z : HDict) :
    hset (h ++ [x, y]) h.length z = h ++ [z, y] := by
  unfold hset
  have h0 := set_append_add h [x, y] 0 z
  rw [Nat.add_zero] at h0
  exact h0

theorem hset_append2_a1 (h : Heap) (x y z : HDict) :
    hset (h ++ [x, y]) (h.length + 1) z = h ++ [x, z] := by
  unfold hset
  exact set_append_add h [x, y] 1 z

theorem hget_lt_of_some (h : Heap) (a : Nat) (d : HDict)
    (hd : hget h a = some d) : a < h.length := by
  by_contra hcontra
  push_neg at hcontra
  unfold hget at hd
  rw [List.getElem?_eq_none hcontra] at hd
  cases hd

theorem map_fst_map_pair (pk : List String) :
    ((pk.map (fun k => (k, HV.none))).map Prod.fst) = pk := by
  induction pk with
  | nil => rfl
  | cons k pk ih => simp [ih]

theorem mergeHeapEntry_eq (pk : List String) (dk : String) (hdk : dk ∉ pk)
    (h : Heap) (inner mdc : HDict) (hfst : mdc.map Prod.fst = pk) (v : HV)
    (hok : valOK dk h.length h v = true) :
    mergeHeapEntry pk dk (h.length + 1)
        (h ++ [inner, mdc ++ [(dk, HV.ref h.length)]]) v
      = (readEntry dk h v).map (fun e =>
          h ++ [(pureStep pk dk (mdc, inner) e).2,
                (pureStep pk dk (mdc, inner) e).1 ++ [(dk, HV.ref h.length)]]) := by
  have hks : ∀ k ∈ pk, hdHasKey mdc k = true := fun k hk =>
    (hdHasKey_iff_mem mdc k).mpr (by rw [hfst]; exact hk)
  cases v with
  | none => rfl
  | obj n0 => rfl
  | str s => rfl
  | ref r =>
    have hok' := hok
    unfold valOK at hok'
    rw [Bool.and_eq_true_iff] at hok'
    have hrlt : r < h.length := of_decide_eq_true hok'.1
    unfold mergeHeapEntry readEntry
    dsimp only
    rw [hget_append_lt _ _ r hrlt]
    cases hod : hget h r with
    | none => rfl
    | some od =>
      have hir := hok'.2
      rw [hod] at hir
      dsimp only at hir
      dsimp only
      rw [hget_append2_a1]
      dsimp only
      have hall : ((mdc ++ [(dk, HV.ref h.length)]).all
          fun kv => hdHasKey od kv.1)
            = ((pk ++ [dk]).all fun k => hdHasKey od k) := by
        rw [List.all_append, List.all_append,
          all_fst_eq mdc (fun k => hdHasKey od k), hfst]
        rfl
      rw [hall]
      simp only [Option.map, pureStep]
      by_cases hchk : ((pk ++ [dk]).all fun k => hdHasKey od k) = true
      · simp only [if_pos hchk]
        cases hlk : hdLookup od dk with
        | none => rfl
        | some hv =>
          cases hv with
          | none => rfl
          | obj n1 => rfl
          | str s1 => rfl
          | ref ir =>
            rw [hlk] at hir
            dsimp only at hir
            have hirlt : ir < h.length := of_decide_eq_true hir
            dsimp only
            rw [hget_append_lt _ _ ir hirlt]
            cases hid : hget h ir with
            | none => rfl
            | some idct =>
              dsimp only
              rw [foldl_hdSet_append pk _ mdc dk _ hdk hks]
              rw [hset_append2_a1]
              have hnotmem : dk ∉ (pk.foldl
                  (fun m k => hdSet m k ((hdLookup od k).getD HV.none))
                  mdc).map Prod.fst := by
                rw [foldl_hdSet_map_fst pk _ mdc hks, hfst]
                exact hdk
              rw [hdLookup_append_last _ dk _ hnotmem]
              dsimp only
              rw [hget_append2_a0]
              dsimp only
              rw [hset_append2_a0]
      · simp only [if_neg hchk]

theorem pureStep_fst (pk : List String) (dk : String) (st : HDict × HDict)
    (e : HDict × Option HDict) (hfst : st.1.map Prod.fst = pk) :
    (pureStep pk dk st e).1.map Prod.fst = pk := by
  have hks : ∀ k ∈ pk, hdHasKey st.1 k = true := fun k hk =>
    (hdHasKey_iff_mem st.1 k).mpr (by rw [hfst]; exact hk)
  unfold pureStep
  by_cases hchk : ((pk ++ [dk]).all fun k => hdHasKey e.1 k) = true
  · rw [if_pos hchk]
    cases he : e.2 with
    | none => exact hfst
    | some idct =>
      dsimp only
      rw [foldl_hdSet_map_fst pk _ st.1 hks]
      exact hfst
  · rw [if_neg hchk]
    exact hfst

theorem foldl_pureStep_fst (pk : List String) (dk : String)
    (es : List (HDict × Option HDict)) (st : HDict × HDict)
    (hfst : st.1.map Prod.fst = pk) :
    (es.foldl (pureStep pk dk) st).1.map Prod.fst = pk := by
  induction es generalizing st with
  | nil => exact hfst
  | cons e es ih =>
    rw [List.foldl_cons]
    exact ih (pureStep pk dk st e) (pureStep_fst pk dk st e hfst)

theorem mergeHeapLoop_eq (pk : List String) (dk : String) (hdk : dk ∉ pk)
    (h : Heap) (entries : List (String × HV)) (inner mdc : HDict)
    (hfst : mdc.map Prod.fst = pk)
    (hok : ∀ p ∈ entries, valOK dk h.length h p.2 = true) :
    mergeHeapLoop pk dk (h.length + 1)
        (h ++ [inner, mdc ++ [(dk, HV.ref h.length)]]) entries
      = (readAll dk h entries).map (fun es =>
          h ++ [(es.foldl (pureStep pk dk) (mdc, inner)).2,
                (es.foldl (pureStep pk dk) (mdc, inner)).1
                  ++ [(dk, HV.ref h.length)]]) := by
  induction entries generalizing inner mdc with
  | nil => rfl
  | cons e rest ih =>
    rw [mergeHeapLoop, readAll]
    rw [mergeHeapEntry_eq pk dk hdk h inner mdc hfst e.2
      (hok e (List.mem_cons_self e rest))]
    cases hre : readEntry dk h e.2 with
    | none => rfl
    | some x =>
      dsimp only [Option.map]
      rw [ih ((pureStep pk dk (mdc, inner) x).2)
        ((pureStep pk dk (mdc, inner) x).1)
        (pureStep_fst pk dk (mdc, inner) x hfst)
        (fun p hp => hok p (List.mem_cons_of_mem e hp))]
      cases hra : readAll dk h rest with
      | none => rfl
      | some xs => rfl

theorem fillHeapLoop_eq (dk : String) (ph : HV) (h : Heap)
    (agents : List String) (inner mdc : HDict)
    (hnmem : dk ∉ mdc.map Prod.fst) :
    agents.foldl (fillHeapStep dk ph (h.length + 1))
        (h ++ [inner, mdc ++ [(dk, HV.ref h.length)]])
      = h ++ [fillPure ph agents inner, mdc ++ [(dk, HV.ref h.length)]] := by
  induction agents generalizing inner with
  | nil => rfl
  | cons a ag ih =>
    rw [List.foldl_cons]
    have hstep : fillHeapStep dk ph (h.length + 1)
        (h ++ [inner, mdc ++ [(dk, HV.ref h.length)]]) a
      = (if hdHasKey inner a = true
          then h ++ [inner, mdc ++ [(dk, HV.ref h.length)]]
          else h ++ [hdSet inner a ph, mdc ++ [(dk, HV.ref h.length)]]) := by
      unfold fillHeapStep
      rw [hget_append2_a1]
      dsimp only
      rw [hdLookup_append_last mdc dk _ hnmem]
      dsimp only
      rw [hget_append2_a0]
      dsimp only
      by_cases hk : hdHasKey inner a = true
      · rw [if_pos hk, if_pos hk]
      · rw [if_neg hk, if_neg hk, hset_append2_a0]
    rw [hstep]
    have hfc : fillPure ph (a :: ag) inner
        = fillPure ph ag (if hdHasKey inner a = true then inner
            else hdSet inner a ph) := rfl
    rw [hfc]
    by_cases hk : hdHasKey inner a = true
    · rw [if_pos hk, if_pos hk]
      exact ih inner
    · rw [if_neg hk, if_neg hk]
      exact ih (hdSet inner a ph)

/-- The heap merger equals its pure normal form on well-typed input. -/
theorem mergeHeap_eq_mergePure (pk : List String) (dk : String) (ph : HV)
    (hdk : dk ∉ pk) (h : Heap) (oref : Nat)
    (hok : inputOK dk h oref = true) :
    mergeHeap pk dk ph h oref = mergePure pk dk ph h oref := by
  unfold mergeHeap mergePure
  cases hout : hget h oref with
  | none => rfl
  | some outs =>
    dsimp only
    unfold inputOK at hok
    rw [hout] at hok
    dsimp only at hok
    have hoks : ∀ p ∈ outs, valOK dk h.length h p.2 = true := by
      intro p hp
      exact List.all_eq_true.mp hok p hp
    have happ : (h ++ [([] : HDict)])
          ++ [pk.map (fun k => (k, HV.none)) ++ [(dk, HV.ref h.length)]]
        = h ++ [([] : HDict),
            pk.map (fun k => (k, HV.none)) ++ [(dk, HV.ref h.length)]] := by
      rw [List.append_assoc]
      rfl
    have hlen : (h ++ [([] : HDict)]).length = h.length + 1 := by simp
    rw [happ, hlen]
    rw [mergeHeapLoop_eq pk dk hdk h outs [] (pk.map (fun k => (k, HV.none)))
      (map_fst_map_pair pk) hoks]
    cases hra : readAll dk h outs with
    | none => rfl
    | some es =>
      dsimp only [Option.map]
      have hnmem : dk ∉ ((es.foldl (pureStep pk dk)
          (pk.map (fun k => (k, HV.none)), [])).1).map Prod.fst := by
        rw [foldl_pureStep_fst pk dk es _ (map_fst_map_pair pk)]
        exact hdk
      rw [fillHeapLoop_eq dk ph h (outs.map Prod.fst) _ _ hnmem]

theorem readEntry_frame (dk : String) (h g : Heap) (v : HV)
    (hagree : ∀ a, a < h.length → hget g a = hget h a)
    (hok : valOK dk h.length h v = true) :
    readEntry dk g v = readEntry dk h v := by
  cases v with
  | none => rfl
  | obj n0 => rfl
  | str s => rfl
  | ref r =>
    unfold valOK at hok
    rw [Bool.and_eq_true_iff] at hok
    have hrlt := of_decide_eq_true hok.1
    unfold readEntry
    dsimp only
    rw [hagree r hrlt]
    cases hod : hget h r with
    | none => rfl
    | some od =>
      have hir := hok.2
      rw [hod] at hir
      dsimp only at hir
      dsimp only [Option.map]
      cases hlk : hdLookup od dk with
      | none => rfl
      | some hv =>
        cases hv with
        | none => rfl
        | obj n1 => rfl
        | str s1 => rfl
        | ref ir =>
          rw [hlk] at hir
          dsimp only at hir
          have hirlt := of_decide_eq_true hir
          dsimp only
          rw [hagree ir hirlt]

theorem readAll_frame (dk : String) (h g : Heap) (outs : List (String × HV))
    (hagree : ∀ a, a < h.length → hget g a = hget h a)
    (hoks : ∀ p ∈ outs, valOK dk h.length h p.2 = true) :
    readAll dk g outs = readAll dk h outs := by
  induction outs with
  | nil => rfl
  | cons e rest ih =>
    rw [readAll, readAll,
      readEntry_frame dk h g e.2 hagree (hoks e (List.mem_cons_self e rest)),
      ih (fun p hp => hoks p (List.mem_cons_of_mem e hp))]

theorem valOK_frame (dk : String) (h g : Heap) (v : HV)
    (hlen : h.length ≤ g.length)
    (hagree : ∀ a, a < h.length → hget g a = hget h a)
    (hok : valOK dk h.length h v = true) :
    valOK dk g.length g v = true := by
  cases v with
  | none => rfl
  | obj n0 => rfl
  | str s => rfl
  | ref r =>
    unfold valOK at hok
    rw [Bool.and_eq_true_iff] at hok
    have hrlt := of_decide_eq_true hok.1
    unfold valOK
    rw [Bool.and_eq_true_iff]
    refine ⟨decide_eq_true (Nat.lt_of_lt_of_le hrlt hlen), ?_⟩
    rw [hagree r hrlt]
    cases hod : hget h r with
    | none => rfl
    | some od =>
      have hir := hok.2
      rw [hod] at hir
      dsimp only at hir
      dsimp only
      cases hlk : hdLookup od dk with
      | none => rfl
      | some hv =>
        cases hv with
        | none => rfl
        | obj n1 => rfl
        | str s1 => rfl
        | ref ir =>
          rw [hlk] at hir
          dsimp only at hir
          exact decide_eq_true (Nat.lt_of_lt_of_le (of_decide_eq_true hir) hlen)

theorem inputOK_frame (dk : String) (h : Heap) (oref : Nat) (g : Heap)
    (horef : oref < h.length) (hlen : h.length ≤ g.length)
    (hagree : ∀ a, a < h.length → hget g a = hget h a)
    (hok : inputOK dk h oref = true) : inputOK dk g oref = true := by
  unfold inputOK at hok
  unfold inputOK
  rw [hagree oref horef]
  cases hout : hget h oref with
  | none => rfl
  | some outs =>
    rw [hout] at hok
    dsimp only at hok
    dsimp only
    rw [List.all_eq_true]
    intro p hp
    exact valOK_frame dk h g p.2 hlen hagree (List.all_eq_true.mp hok p hp)

theorem mergeHeap_run_shape (pk : List String) (dk : String) (ph : HV)
    (hdk : dk ∉ pk) (h : Heap) (oref : Nat) (g : Heap) (r : Nat)
    (hok : inputOK dk h oref = true)
    (hrun : mergeHeap pk dk ph h oref = some (g, r)) :
    ∃ outs es, hget h oref = some outs ∧ readAll dk h outs = some es ∧
      g = h ++ [fillPure ph (outs.map Prod.fst)
            (es.foldl (pureStep pk dk) (pk.map (fun k => (k, HV.none)), [])).2,
          (es.foldl (pureStep pk dk) (pk.map (fun k => (k, HV.none)), [])).1
            ++ [(dk, HV.ref h.length)]] ∧
      r = h.length + 1 := by
  rw [mergeHeap_eq_mergePure pk dk ph hdk h oref hok] at hrun
  unfold mergePure at hrun
  cases hout : hget h oref with
  | none =>
    rw [hout] at hrun
    exact absurd hrun (by simp)
  | some outs =>
    rw [hout] at hrun
    dsimp only at hrun
    cases hra : readAll dk h outs with
    | none =>
      rw [hra] at hrun
      exact absurd hrun (by simp)
    | some es =>
      rw [hra] at hrun
      dsimp only at hrun
      have hx := Option.some.inj hrun
      exact ⟨outs, es, rfl, hra,
        (congrArg Prod.fst hx).symm, (congrArg Prod.snd hx).symm⟩

theorem filter_append_dk (st1 : HDict) (dk : String) (v : HV) :
    (st1 ++ [(dk, v)]).filter (fun p => !(p.1 == dk))
      = st1.filter (fun p => !(p.1 == dk)) := by
  rw [List.filter_append]
  have : ([(dk, v)].filter (fun p => !(p.1 == dk))) = [] := by
    simp [List.filter]
  rw [this, List.append_nil]

theorem mergeHeap_pure_generic (pk : List String) (dk : String) (ph : HV)
    (hdk : dk ∉ pk) (h : Heap) (oref : Nat) (g : Heap) (r : Nat)
    (hok : inputOK dk h oref = true)
    (hrun : mergeHeap pk dk ph h oref = some (g, r)) :
    (∀ a, a < h.length → hget g a = hget h a) ∧
    ∃ g2 r2, mergeHeap pk dk ph g oref = some (g2, r2) ∧
      denoteMerged dk g2 r2 = denoteMerged dk g r := by
  obtain ⟨outs, es, hout, hra, hg, hr⟩ :=
    mergeHeap_run_shape pk dk ph hdk h oref g r hok hrun
  have hframe : ∀ a, a < h.length → hget g a = hget h a := by
    intro a ha
    rw [hg]
    exact hget_append_lt h _ a ha
  refine ⟨hframe, ?_⟩
  have horef : oref < h.length := hget_lt_of_some h oref outs hout
  have hlen : h.length ≤ g.length := by
    rw [hg, List.length_append]
    omega
  have hok2 : inputOK dk g oref = true :=
    inputOK_frame dk h oref g horef hlen hframe hok
  have hout2 : hget g oref = some outs := by
    rw [hframe oref horef]
    exact hout
  have hoks : ∀ p ∈ outs, valOK dk h.length h p.2 = true := by
    have hok' := hok
    unfold inputOK at hok'
    rw [hout] at hok'
    dsimp only at hok'
    exact fun p hp => List.all_eq_true.mp hok' p hp
  have hra2 : readAll dk g outs = some es := by
    rw [readAll_frame dk h g outs hframe hoks]
    exact hra
  have hnm : dk ∉ ((es.foldl (pureStep pk dk)
      (pk.map (fun k => (k, HV.none)), [])).1).map Prod.fst := by
    rw [foldl_pureStep_fst pk dk es _ (map_fst_map_pair pk)]
    exact hdk
  rw [mergeHeap_eq_mergePure pk dk ph hdk g oref hok2]
  unfold mergePure
  rw [hout2]
  dsimp only
  rw [hra2]
  dsimp only
  refine ⟨_, _, rfl, ?_⟩
  have hd2 : denoteMerged dk
      (g ++ [fillPure ph (outs.map Prod.fst)
          (es.foldl (pureStep pk dk) (pk.map (fun k => (k, HV.none)), [])).2,
        (es.foldl (pureStep pk dk) (pk.map (fun k => (k, HV.none)), [])).1
          ++ [(dk, HV.ref g.length)]])
      (g.length + 1)
    = some (((es.foldl (pureStep pk dk)
          (pk.map (fun k => (k, HV.none)), [])).1
            ++ [(dk, HV.ref g.length)]).filter (fun p => !(p.1 == dk)),
        fillPure ph (outs.map Prod.fst)
          (es.foldl (pureStep pk dk) (pk.map (fun k => (k, HV.none)), [])).2) := by
    unfold denoteMerged
    rw [hget_append2_a1]
    dsimp only
    rw [hdLookup_append_last _ dk _ hnm]
    dsimp only
    rw [hget_append2_a0]
    rfl
  have hd1 : denoteMerged dk g r
    = some (((es.foldl (pureStep pk dk)
          (pk.map (fun k => (k, HV.none)), [])).1
            ++ [(dk, HV.ref h.length)]).filter (fun p => !(p.1 == dk)),
        fillPure ph (outs.map Prod.fst)
          (es.foldl (pureStep pk dk) (pk.map (fun k => (k, HV.none)), [])).2) := by
    rw [hg, hr]
    unfold denoteMerged
    rw [hget_append2_a1]
    dsimp only
    rw [hdLookup_append_last _ dk _ hnm]
    dsimp only
    rw [hget_append2_a0]
    rfl
  rw [hd2, hd1, filter_append_dk, filter_append_dk]

/-- Claim C9: both mergers, run against the explicit heap, leave every
pre-existing heap cell (in particular the input mapping and all the
per-agent dicts) unchanged, and calling the merger a second time on the
identical input yields a result dict with identical observable value —
the merger is a pure function of its input apart from logging. -/
theorem mergers_pure (h : Heap) (oref : Nat) :
    (∀ g r, inputOK "agent_answers" h oref = true →
      merge_stage1_heap h oref = some (g, r) →
      (∀ a, a < h.length → hget g a = hget h a) ∧
      ∃ g2 r2, merge_stage1_heap g oref = some (g2, r2) ∧
        denoteMerged "agent_answers" g2 r2 = denoteMerged "agent_answers" g r) ∧
    (∀ g r, inputOK "agent_opinion" h oref = true →
      merge_stage2_heap h oref = some (g, r) →
      (∀ a, a < h.length → hget g a = hget h a) ∧
      ∃ g2 r2, merge_stage2_heap g oref = some (g2, r2) ∧
        denoteMerged "agent_opinion" g2 r2 = denoteMerged "agent_opinion" g r) := by
  constructor
  · intro g r hok hrun
    exact mergeHeap_pure_generic ["question", "answer"] "agent_answers"
      (HV.str "No answer received...") (by decide) h oref g r hok hrun
  · intro g r hok hrun
    exact mergeHeap_pure_generic ["question", "answer", "stage2_prompt"]
      "agent_opinion" (HV.str "No feedback received...") (by decide)
      h oref g r hok hrun

/-- A stage-1 input heap: the outputs dict at address 0 maps agent `A`
to the dict at address 1, whose `agent_answers` entry references the
dict at address 2. -/
def exHeapS1 : Heap :=
  [[("A", HV.ref 1)],
   [("question", HV.str "q"), ("answer", HV.str "a"),
    ("agent_answers", HV.ref 2)],
   [("B", HV.str "ans")]]

/-- The heap `merge_stage1_heap` produces from `exHeapS1`: the three
input cells unchanged, plus the filled contribution dict and the merged
dict. -/
def exHeapS1Res : Heap :=
  [[("A", HV.ref 1)],
   [("question", HV.str "q"), ("answer", HV.str "a"),
    ("agent_answers", HV.ref 2)],
   [("B", HV.str "ans")],
   [("B", HV.str "ans"), ("A", HV.str "No answer received...")],
   [("question", HV.str "q"), ("answer", HV.str "a"),
    ("agent_answers", HV.ref 3)]]

/-- A stage-2 input heap of the same shape. -/
def exHeapS2 : Heap :=
  [[("A", HV.ref 1)],
   [("question", HV.str "q"), ("answer", HV.str "a"),
    ("stage2_prompt", HV.str "p"), ("agent_opinion", HV.ref 2)],
   [("B", HV.str "op")]]

/-- The heap `merge_stage2_heap` produces from `exHeapS2`. -/
def exHeapS2Res : Heap :=
  [[("A", HV.ref 1)],
   [("question", HV.str "q"), ("answer", HV.str "a"),
    ("stage2_prompt", HV.str "p"), ("agent_opinion", HV.ref 2)],
   [("B", HV.str "op")],
   [("B", HV.str "op"), ("A", HV.str "No feedback received...")],
   [("question", HV.str "q"), ("answer", HV.str "a"),
    ("stage2_prompt", HV.str "p"), ("agent_opinion", HV.ref 3)]]

theorem mergers_pure_witness :
    ((inputOK "agent_answers" exHeapS1 0 = true ∧
        merge_stage1_heap exHeapS1 0 = some (exHeapS1Res, 4)) ∧
      (∀ a, a < exHeapS1.length → hget exHeapS1Res a = hget exHeapS1 a)) ∧
    ((inputOK "agent_opinion" exHeapS2 0 = true ∧
        merge_stage2_heap exHeapS2 0 = some (exHeapS2Res, 4)) ∧
      (∀ a, a < exHeapS2.length → hget exHeapS2Res a = hget exHeapS2 a)) :=
  ⟨⟨⟨by decide, by decide⟩,
      ((mergers_pure exHeapS1 0).1 exHeapS1Res 4 (by decide) (by decide)).1⟩,
   ⟨⟨by decide, by decide⟩,
      ((mergers_pure exHeapS2 0).2 exHeapS2Res 4 (by decide) (by decide)).1⟩⟩
